import Mathlib

/-!
Verification of the matchstick-digit solver (`digits.py`) against its
natural-language specification.

The Python program is shallowly embedded: `Stick` is a record of two integer
coordinates and an orientation; a `StickCollection` is a `Finset Stick`;
Python frozenset operations become `Finset` operations; Python exceptions
become `Except`; the Python 2 `eval` on the restricted token strings produced
by `Expression.code` is embedded as an executable recursive-descent evaluator
`exprEval` faithful to Python 2 syntax on those strings (unary signs, octal
integer literals, comparison chaining).
-/

namespace Digits

/-- Model of `Stick.VERTICAL` / `Stick.HORIZONTAL` (the two orientation constants). -/
inductive Orientation where
  | vertical
  | horizontal
deriving DecidableEq, Repr

/-- A single matchstick: `Stick(row, column, orientation)`.  Equality and hash
in the source are by the three fields, which is structural equality here. -/
structure Stick where
  row : Int
  column : Int
  orientation : Orientation
deriving DecidableEq, Repr

/-- Translate one stick by a (row, column) offset. -/
def shiftStick (d : Int × Int) (t : Stick) : Stick :=
  ⟨t.row + d.1, t.column + d.2, t.orientation⟩

/-- Translate a whole stick set by a (row, column) offset. -/
def shiftSet (s : Finset Stick) (d : Int × Int) : Finset Stick :=
  s.image (shiftStick d)

/-- Model of `min(stick.row for stick in self.sticks) if self.sticks else 0`
(from `StickCollection.__init__`). -/
def minRow (s : Finset Stick) : Int :=
  if h : s.Nonempty then s.inf' h Stick.row else 0

/-- Model of `min(stick.column for stick in self.sticks) if self.sticks else 0`
(from `StickCollection.__init__`). -/
def minCol (s : Finset Stick) : Int :=
  if h : s.Nonempty then s.inf' h Stick.column else 0

/-- Model of `self.normalized_sticks` from `StickCollection.__init__`: every stick
shifted so that the minimum row and minimum column are both 0. -/
def normalize (s : Finset Stick) : Finset Stick :=
  s.image fun t => ⟨t.row - minRow s, t.column - minCol s, t.orientation⟩

/-- Model of `StickCollection.__eq__`: equality of the normalized stick sets. -/
def scEq (a b : Finset Stick) : Prop :=
  normalize a = normalize b

instance (a b : Finset Stick) : Decidable (scEq a b) := by
  unfold scEq; infer_instance

theorem shiftStick_injective (d : Int × Int) : Function.Injective (shiftStick d) := by
  intro a b h
  cases a; cases b
  simp only [shiftStick, Stick.mk.injEq] at h
  obtain ⟨h1, h2, h3⟩ := h
  simp only [Stick.mk.injEq]
  exact ⟨by omega, by omega, h3⟩

theorem shiftSet_shiftSet (s : Finset Stick) (d e : Int × Int) :
    shiftSet (shiftSet s d) e = shiftSet s (d.1 + e.1, d.2 + e.2) := by
  unfold shiftSet
  rw [Finset.image_image]
  apply Finset.image_congr
  intro t _
  simp only [Function.comp_apply, shiftStick]
  exact congrArg₂ (fun r c => Stick.mk r c t.orientation) (by ring) (by ring)

theorem shiftSet_zero (s : Finset Stick) : shiftSet s (0, 0) = s := by
  unfold shiftSet
  have : shiftStick (0, 0) = id := by
    funext t
    simp [shiftStick]
  rw [this, Finset.image_id]

theorem normalize_eq_shiftSet (s : Finset Stick) :
    normalize s = shiftSet s (-minRow s, -minCol s) := by
  unfold normalize shiftSet shiftStick
  apply Finset.image_congr
  intro t _
  exact congrArg₂ (fun r c => Stick.mk r c t.orientation) (by ring) (by ring)

theorem shiftSet_nonempty (s : Finset Stick) (d : Int × Int) (h : s.Nonempty) :
    (shiftSet s d).Nonempty :=
  Finset.Nonempty.image h _

/-- Shifting a nonempty set shifts its minimum row accordingly. -/
theorem minRow_shiftSet (s : Finset Stick) (d : Int × Int) (h : s.Nonempty) :
    minRow (shiftSet s d) = minRow s + d.1 := by
  unfold minRow
  rw [dif_pos (shiftSet_nonempty s d h), dif_pos h]
  have h' : (s.image (shiftStick d)).Nonempty := Finset.Nonempty.image h _
  have himg : (s.image (shiftStick d)).inf' h' Stick.row
      = s.inf' h (Stick.row ∘ shiftStick d) := Finset.inf'_image h' _
  have : (shiftSet s d).inf' (shiftSet_nonempty s d h) Stick.row
      = s.inf' h (Stick.row ∘ shiftStick d) := himg
  rw [this]
  apply le_antisymm
  · obtain ⟨i, hi, hieq⟩ := Finset.exists_mem_eq_inf' h Stick.row
    calc s.inf' h (Stick.row ∘ shiftStick d) ≤ (Stick.row ∘ shiftStick d) i :=
          Finset.inf'_le _ hi
      _ = i.row + d.1 := rfl
      _ = s.inf' h Stick.row + d.1 := by rw [hieq]
  · obtain ⟨i, hi, hieq⟩ := Finset.exists_mem_eq_inf' h (Stick.row ∘ shiftStick d)
    have : s.inf' h Stick.row ≤ i.row := Finset.inf'_le _ hi
    have : s.inf' h Stick.row + d.1 ≤ i.row + d.1 := by omega
    calc s.inf' h Stick.row + d.1 ≤ i.row + d.1 := this
      _ = (Stick.row ∘ shiftStick d) i := rfl
      _ = s.inf' h (Stick.row ∘ shiftStick d) := hieq.symm

/-- Shifting a nonempty set shifts its minimum column accordingly. -/
theorem minCol_shiftSet (s : Finset Stick) (d : Int × Int) (h : s.Nonempty) :
    minCol (shiftSet s d) = minCol s + d.2 := by
  unfold minCol
  rw [dif_pos (shiftSet_nonempty s d h), dif_pos h]
  have h' : (s.image (shiftStick d)).Nonempty := Finset.Nonempty.image h _
  have himg : (s.image (shiftStick d)).inf' h' Stick.column
      = s.inf' h (Stick.column ∘ shiftStick d) := Finset.inf'_image h' _
  have : (shiftSet s d).inf' (shiftSet_nonempty s d h) Stick.column
      = s.inf' h (Stick.column ∘ shiftStick d) := himg
  rw [this]
  apply le_antisymm
  · obtain ⟨i, hi, hieq⟩ := Finset.exists_mem_eq_inf' h Stick.column
    calc s.inf' h (Stick.column ∘ shiftStick d) ≤ (Stick.column ∘ shiftStick d) i :=
          Finset.inf'_le _ hi
      _ = i.column + d.2 := rfl
      _ = s.inf' h Stick.column + d.2 := by rw [hieq]
  · obtain ⟨i, hi, hieq⟩ := Finset.exists_mem_eq_inf' h (Stick.column ∘ shiftStick d)
    have : s.inf' h Stick.column ≤ i.column := Finset.inf'_le _ hi
    have : s.inf' h Stick.column + d.2 ≤ i.column + d.2 := by omega
    calc s.inf' h Stick.column + d.2 ≤ i.column + d.2 := this
      _ = (Stick.column ∘ shiftStick d) i := rfl
      _ = s.inf' h (Stick.column ∘ shiftStick d) := hieq.symm

/-- Normalization is invariant under translation. -/
theorem normalize_shiftSet (s : Finset Stick) (d : Int × Int) :
    normalize (shiftSet s d) = normalize s := by
  rcases Finset.eq_empty_or_nonempty s with he | hne
  · subst he
    simp [shiftSet, normalize]
  · rw [normalize_eq_shiftSet, normalize_eq_shiftSet,
      minRow_shiftSet s d hne, minCol_shiftSet s d hne, shiftSet_shiftSet]
    congr 1
    simp only [Prod.mk.injEq]
    constructor <;> ring

theorem shiftSet_cancel (s : Finset Stick) (d : Int × Int) :
    shiftSet (shiftSet s d) (-d.1, -d.2) = s := by
  rw [shiftSet_shiftSet]
  have : (d.1 + -d.1, d.2 + -d.2) = ((0 : Int), (0 : Int)) := by
    simp only [Prod.mk.injEq]; omega
  rw [this, shiftSet_zero]

/-- The original set is recovered by shifting the normalized form back. -/
theorem shiftSet_normalize (s : Finset Stick) :
    shiftSet (normalize s) (minRow s, minCol s) = s := by
  rw [normalize_eq_shiftSet, shiftSet_shiftSet]
  have : (-minRow s + minRow s, -minCol s + minCol s) = ((0 : Int), (0 : Int)) := by
    simp only [Prod.mk.injEq]; omega
  rw [this, shiftSet_zero]

theorem card_shiftSet (s : Finset Stick) (d : Int × Int) : (shiftSet s d).card = s.card :=
  Finset.card_image_of_injective s (shiftStick_injective d)

theorem card_normalize (s : Finset Stick) : (normalize s).card = s.card := by
  rw [normalize_eq_shiftSet]; exact card_shiftSet s _

/-- Two stick sets have equal normalized forms exactly when one is a pure
translation of the other. -/
theorem scEq_iff_exists_shift (A B : Finset Stick) :
    scEq A B ↔ ∃ dr dc : Int, B = shiftSet A (dr, dc) := by
  constructor
  · intro h
    refine ⟨-minRow A + minRow B, -minCol A + minCol B, ?_⟩
    calc B = shiftSet (normalize B) (minRow B, minCol B) := (shiftSet_normalize B).symm
      _ = shiftSet (normalize A) (minRow B, minCol B) := by rw [h]
      _ = shiftSet (shiftSet A (-minRow A, -minCol A)) (minRow B, minCol B) := by
          rw [normalize_eq_shiftSet]
      _ = shiftSet A (-minRow A + minRow B, -minCol A + minCol B) :=
          shiftSet_shiftSet A _ _
  · rintro ⟨dr, dc, rfl⟩
    exact (normalize_shiftSet A (dr, dc)).symm

theorem scEq_card {A B : Finset Stick} (h : scEq A B) : A.card = B.card := by
  rw [← card_normalize A, ← card_normalize B, h]

theorem scEq_refl (A : Finset Stick) : scEq A A := rfl

theorem scEq_symm {A B : Finset Stick} (h : scEq A B) : scEq B A := h.symm

theorem scEq_trans {A B C : Finset Stick} (h1 : scEq A B) (h2 : scEq B C) : scEq A C :=
  h1.trans h2

theorem scEq_shiftSet (A : Finset Stick) (d : Int × Int) : scEq A (shiftSet A d) :=
  (normalize_shiftSet A d).symm

/-- Model of `StickCollection.__sub__`: a copy with the given stick removed, or the
collection itself when the stick is absent. -/
def scSub (s : Finset Stick) (t : Stick) : Finset Stick :=
  if t ∈ s then s.erase t else s

/-- Model of `StickCollection.__add__`: a copy with the given stick added. -/
def scAdd (s : Finset Stick) (t : Stick) : Finset Stick :=
  insert t s

theorem scSub_eq_erase (s : Finset Stick) (t : Stick) : scSub s t = s.erase t := by
  unfold scSub
  by_cases h : t ∈ s
  · rw [if_pos h]
  · rw [if_neg h, Finset.erase_eq_of_not_mem h]

theorem shiftSet_erase (s : Finset Stick) (t : Stick) (d : Int × Int) :
    shiftSet (s.erase t) d = (shiftSet s d).erase (shiftStick d t) := by
  unfold shiftSet
  exact Finset.image_erase (shiftStick_injective d) s t

theorem shiftSet_insert (s : Finset Stick) (t : Stick) (d : Int × Int) :
    shiftSet (insert t s) d = insert (shiftStick d t) (shiftSet s d) := by
  unfold shiftSet
  exact Finset.image_insert (shiftStick d) t s

/-- The reachability primitive at stick-set level (`Symbol.is_reachable_from`):
true iff `self` has exactly one more stick than `other` and removing some
stick of `self` yields a translation of `other`. -/
def reachableFrom (self other : Finset Stick) : Bool :=
  if self.card ≠ other.card + 1 then false
  else decide (∃ t ∈ self, scEq other (scSub self t))

theorem reachableFrom_iff (self other : Finset Stick) :
    reachableFrom self other = true ↔
      self.card = other.card + 1 ∧ ∃ t ∈ self, scEq other (scSub self t) := by
  unfold reachableFrom
  by_cases h : self.card ≠ other.card + 1
  · rw [if_pos h]
    constructor
    · intro hcontra
      exact (Bool.false_ne_true hcontra).elim
    · rintro ⟨hc, -⟩
      exact absurd hc h
  · simp only [if_neg h, decide_eq_true_eq]
    push_neg at h
    exact ⟨fun he => ⟨h, he⟩, fun he => he.2⟩

/-- Reachability only depends on the shapes up to translation (one direction). -/
theorem reachableFrom_mono {a a' b b' : Finset Stick} (ha : scEq a a') (hb : scEq b b')
    (h : reachableFrom a b = true) : reachableFrom a' b' = true := by
  rw [reachableFrom_iff] at h ⊢
  obtain ⟨hcard, t, ht, hteq⟩ := h
  obtain ⟨dr, dc, rfl⟩ := (scEq_iff_exists_shift a a').1 ha
  refine ⟨?_, shiftStick (dr, dc) t, ?_, ?_⟩
  · rw [card_shiftSet, hcard, scEq_card hb]
  · exact Finset.mem_image_of_mem _ ht
  · rw [scSub_eq_erase, ← shiftSet_erase]
    have h1 : scEq (scSub a t) (shiftSet (a.erase t) (dr, dc)) := by
      rw [scSub_eq_erase]; exact scEq_shiftSet _ _
    exact scEq_trans (scEq_trans (scEq_symm hb) hteq) h1

theorem reachableFrom_congr {a a' b b' : Finset Stick} (ha : scEq a a') (hb : scEq b b') :
    reachableFrom a b = reachableFrom a' b' := by
  by_cases h : reachableFrom a b = true
  · rw [h, (reachableFrom_mono ha hb h).symm]
  · by_cases h' : reachableFrom a' b' = true
    · exact absurd (reachableFrom_mono (scEq_symm ha) (scEq_symm hb) h') h
    · rw [Bool.eq_false_iff.2 h, Bool.eq_false_iff.2 h']

/-- Model of `reachableFrom z I` holds exactly when `z` is (a translation of) `I` with
one fresh stick inserted. -/
theorem reachableFrom_iff_insert (z I : Finset Stick) :
    reachableFrom z I = true ↔ ∃ u, u ∉ I ∧ scEq (insert u I) z := by
  rw [reachableFrom_iff]
  constructor
  · rintro ⟨hcard, v, hv, hveq⟩
    rw [scSub_eq_erase] at hveq
    obtain ⟨dr, dc, hshift⟩ := (scEq_iff_exists_shift I (z.erase v)).1 hveq
    refine ⟨shiftStick (-dr, -dc) v, ?_, ?_⟩
    · intro hmem
      have : shiftStick (dr, dc) (shiftStick (-dr, -dc) v) ∈ shiftSet I (dr, dc) :=
        Finset.mem_image_of_mem _ hmem
      have hvv : shiftStick (dr, dc) (shiftStick (-dr, -dc) v) = v := by
        simp only [shiftStick]
        exact congrArg₂ (fun r c => Stick.mk r c v.orientation) (by ring) (by ring)
      rw [hvv, ← hshift] at this
      exact absurd this (Finset.not_mem_erase v z)
    · have hz : z = insert v (z.erase v) := (Finset.insert_erase hv).symm
      have : shiftSet (insert (shiftStick (-dr, -dc) v) I) (dr, dc)
          = insert v (z.erase v) := by
        rw [shiftSet_insert, ← hshift]
        congr 1
        simp only [shiftStick]
        exact congrArg₂ (fun r c => Stick.mk r c v.orientation) (by ring) (by ring)
      rw [scEq_iff_exists_shift]
      exact ⟨dr, dc, by rw [← hz] at this; exact this.symm⟩
  · rintro ⟨u, hu, hueq⟩
    obtain ⟨dr, dc, hshift⟩ := (scEq_iff_exists_shift (insert u I) z).1 hueq
    have hz : z = insert (shiftStick (dr, dc) u) (shiftSet I (dr, dc)) := by
      rw [hshift, shiftSet_insert]
    constructor
    · rw [← scEq_card hueq, Finset.card_insert_of_not_mem hu]
    · refine ⟨shiftStick (dr, dc) u, ?_, ?_⟩
      · rw [hz]; exact Finset.mem_insert_self _ _
      · rw [scSub_eq_erase]
        have hnm : shiftStick (dr, dc) u ∉ shiftSet I (dr, dc) := by
          intro hmem
          unfold shiftSet at hmem
          obtain ⟨w, hw, hweq⟩ := Finset.mem_image.1 hmem
          exact absurd (shiftStick_injective (dr, dc) hweq ▸ hw) hu
        have : z.erase (shiftStick (dr, dc) u) = shiftSet I (dr, dc) := by
          rw [hz, Finset.erase_insert hnm]
        rw [this]
        exact scEq_shiftSet I (dr, dc)

/-- The sub-kind of a `Symbol`: `Digit`, plain `Operator`, or
`EqualityOperator` (the class tested by `isinstance` in `Expression.evaluate`). -/
inductive SymKind where
  | digit
  | operator
  | equalityOperator
deriving DecidableEq, Repr

/-- A digit or arithmetic operator: shape, evaluation token, name, sub-kind. -/
structure Symbol where
  sticks : Finset Stick
  code : String
  name : String
  kind : SymKind
deriving DecidableEq

/-- Model of `Symbol.__eq__`: equality derives solely from the shape. -/
def symEq (a b : Symbol) : Prop :=
  scEq a.sticks b.sticks

instance (a b : Symbol) : Decidable (symEq a b) := by
  unfold symEq; infer_instance

theorem symEq_refl (a : Symbol) : symEq a a := scEq_refl _

/-- Model of `Symbol.is_reachable_from`: the given symbol becomes this one by adding
exactly one stick (see `reachableFrom` for the stick-set level code). -/
def Symbol.is_reachable_from (self other : Symbol) : Bool :=
  reachableFrom self.sticks other.sticks

/-- Python `in` over a collection of symbols: membership up to `Symbol.__eq__`
(the sets/dicts in the source hash symbols by their normalized shape). -/
def memBySym (y : Symbol) (l : List Symbol) : Prop :=
  ∃ z ∈ l, symEq y z

instance (y : Symbol) (l : List Symbol) : Decidable (memBySym y l) := by
  unfold memBySym; infer_instance

/-- Model of `reachable_with_addition_by_symbol[x]` of `SymbolCollection.__init__`:
all alphabet symbols reachable from `x` by adding one stick. -/
def additionMap (alphabet : List Symbol) (x : Symbol) : List Symbol :=
  alphabet.filter fun y => y.is_reachable_from x

/-- Model of `reachable_with_removal_by_symbol[x]` of `SymbolCollection.__init__`:
all alphabet symbols obtainable from `x` by removing one stick. -/
def removalMap (alphabet : List Symbol) (x : Symbol) : List Symbol :=
  alphabet.filter fun y => x.is_reachable_from y

/-- Model of `StickCollection.removal_set`: all collections obtained by removing
exactly one stick. -/
def removalVariants (s : Finset Stick) : Finset (Finset Stick) :=
  s.image fun t => scSub s t

/-- Model of `reachable_with_move_by_symbol[x]` of `SymbolCollection.__init__`:
all alphabet symbols reachable by adding one stick to some one-stick-removed
intermediate of `x`. -/
def moveMap (alphabet : List Symbol) (x : Symbol) : List Symbol :=
  alphabet.filter fun y =>
    decide (∃ I ∈ removalVariants x.sticks, reachableFrom y.sticks I = true)

/-- The `setdefault` calls in `SymbolCollection.__init__` give every alphabet
member an entry in each of the three maps; the entry lists pair each key with
its computed set. -/
def additionMapEntries (alphabet : List Symbol) : List (Symbol × List Symbol) :=
  alphabet.map fun x => (x, additionMap alphabet x)

def removalMapEntries (alphabet : List Symbol) : List (Symbol × List Symbol) :=
  alphabet.map fun x => (x, removalMap alphabet x)

def moveMapEntries (alphabet : List Symbol) : List (Symbol × List Symbol) :=
  alphabet.map fun x => (x, moveMap alphabet x)

theorem memBySym_additionMap (alphabet : List Symbol) (x y : Symbol)
    (hy : y ∈ alphabet) :
    memBySym y (additionMap alphabet x) ↔ y.is_reachable_from x = true := by
  constructor
  · rintro ⟨z, hz, hyz⟩
    unfold additionMap at hz
    rw [List.mem_filter] at hz
    obtain ⟨-, hzr⟩ := hz
    unfold Symbol.is_reachable_from at hzr ⊢
    rw [reachableFrom_congr (hyz : scEq y.sticks z.sticks) (scEq_refl x.sticks)]
    exact hzr
  · intro h
    exact ⟨y, List.mem_filter.2 ⟨hy, h⟩, symEq_refl y⟩

theorem memBySym_removalMap (alphabet : List Symbol) (x y : Symbol)
    (hx : x ∈ alphabet) :
    memBySym x (removalMap alphabet y) ↔ y.is_reachable_from x = true := by
  constructor
  · rintro ⟨z, hz, hxz⟩
    unfold removalMap at hz
    rw [List.mem_filter] at hz
    obtain ⟨-, hzr⟩ := hz
    unfold Symbol.is_reachable_from at hzr ⊢
    rw [reachableFrom_congr (scEq_refl y.sticks) (hxz : scEq x.sticks z.sticks)]
    exact hzr
  · intro h
    exact ⟨x, List.mem_filter.2 ⟨hx, h⟩, symEq_refl x⟩

/-- Claim C5: For symbols `x`, `y` of a constructed catalog's alphabet,
`y ∈ additionMap[x] ↔ x ∈ removalMap[y]`, and every alphabet member has an
entry (possibly an empty set) in all three maps. -/
theorem c5_catalog_inverse_law (alphabet : List Symbol) (x y : Symbol)
    (hx : x ∈ alphabet) (hy : y ∈ alphabet) :
    (memBySym y (additionMap alphabet x) ↔ memBySym x (removalMap alphabet y)) ∧
    (∃ e ∈ additionMapEntries alphabet, symEq x e.1) ∧
    (∃ e ∈ removalMapEntries alphabet, symEq x e.1) ∧
    (∃ e ∈ moveMapEntries alphabet, symEq x e.1) := by
  refine ⟨?_, ?_, ?_, ?_⟩
  · rw [memBySym_additionMap alphabet x y hy, memBySym_removalMap alphabet x y hx]
  · exact ⟨(x, additionMap alphabet x), List.mem_map_of_mem _ hx, symEq_refl x⟩
  · exact ⟨(x, removalMap alphabet x), List.mem_map_of_mem _ hx, symEq_refl x⟩
  · exact ⟨(x, moveMap alphabet x), List.mem_map_of_mem _ hx, symEq_refl x⟩

/-- A one-stick symbol and a two-stick symbol used to instantiate the catalog
laws on a concrete alphabet. -/
def wSymA : Symbol :=
  ⟨{⟨1, 1, Orientation.horizontal⟩}, "-", "minus", SymKind.operator⟩

def wSymB : Symbol :=
  ⟨{⟨1, 1, Orientation.horizontal⟩, ⟨2, 1, Orientation.horizontal⟩}, "==", "eq",
    SymKind.equalityOperator⟩

theorem c5_witness :
    wSymA ∈ [wSymA, wSymB] ∧ wSymB ∈ [wSymA, wSymB] ∧
    ((memBySym wSymB (additionMap [wSymA, wSymB] wSymA) ↔
        memBySym wSymA (removalMap [wSymA, wSymB] wSymB)) ∧
      (∃ e ∈ additionMapEntries [wSymA, wSymB], symEq wSymA e.1) ∧
      (∃ e ∈ removalMapEntries [wSymA, wSymB], symEq wSymA e.1) ∧
      (∃ e ∈ moveMapEntries [wSymA, wSymB], symEq wSymA e.1)) :=
  ⟨by decide, by decide,
    c5_catalog_inverse_law [wSymA, wSymB] wSymA wSymB (by decide) (by decide)⟩

/-- Claim C6: `is_reachable_from` returns true iff `self` has exactly one more
stick than `other` and deleting some stick `t` of `self` leaves a shape equal
(up to translation) to `other`. -/
theorem c6_reachability_characterization (a b : Symbol) :
    a.is_reachable_from b = true ↔
      a.sticks.card = b.sticks.card + 1 ∧
        ∃ t ∈ a.sticks, scEq (scSub a.sticks t) b.sticks := by
  unfold Symbol.is_reachable_from
  rw [reachableFrom_iff]
  constructor
  · rintro ⟨hc, t, ht, hteq⟩
    exact ⟨hc, t, ht, scEq_symm hteq⟩
  · rintro ⟨hc, t, ht, hteq⟩
    exact ⟨hc, t, ht, scEq_symm hteq⟩

/-- Claim C7: Two shapes are equal exactly when one is a pure translation of
the other (equality uses only the normalized form); in particular a single
vertical stick at (1,1) equals a single vertical stick at (3,3). -/
theorem c7_translation_invariant_equality :
    (∀ A B : Finset Stick, scEq A B ↔ ∃ dr dc : Int, B = shiftSet A (dr, dc)) ∧
    scEq {Stick.mk 1 1 Orientation.vertical} {Stick.mk 3 3 Orientation.vertical} :=
  ⟨scEq_iff_exists_shift, by decide⟩

theorem mem_removalVariants (s : Finset Stick) (I : Finset Stick) :
    I ∈ removalVariants s ↔ ∃ t ∈ s, I = scSub s t := by
  unfold removalVariants
  rw [Finset.mem_image]
  constructor
  · rintro ⟨t, ht, rfl⟩
    exact ⟨t, ht, rfl⟩
  · rintro ⟨t, ht, rfl⟩
    exact ⟨t, ht, rfl⟩

/-- Claim C8, amended: `moveMap[x]` contains exactly the alphabet symbols whose
shape is obtainable from `x`'s shape by removing one stick and then adding one
stick at any unoccupied position of the intermediate — *including* putting the
removed stick back at the identical cell, which always puts `x`'s own shape in
`moveMap[x]` for a nonempty `x`. -/
theorem c8_move_map_characterization (alphabet : List Symbol) (x y : Symbol) :
    memBySym y (moveMap alphabet x) ↔
      memBySym y alphabet ∧
        ∃ t ∈ x.sticks, ∃ u, u ∉ scSub x.sticks t ∧
          scEq (scAdd (scSub x.sticks t) u) y.sticks := by
  constructor
  · rintro ⟨z, hz, hyz⟩
    unfold moveMap at hz
    rw [List.mem_filter] at hz
    obtain ⟨hzA, hzp⟩ := hz
    rw [decide_eq_true_eq] at hzp
    obtain ⟨I, hI, hreach⟩ := hzp
    obtain ⟨t, ht, rfl⟩ := (mem_removalVariants x.sticks I).1 hI
    obtain ⟨u, hu, hueq⟩ := (reachableFrom_iff_insert z.sticks (scSub x.sticks t)).1 hreach
    refine ⟨⟨z, hzA, hyz⟩, t, ht, u, hu, ?_⟩
    exact scEq_trans (hueq : scEq _ z.sticks) (scEq_symm (hyz : scEq y.sticks z.sticks))
  · rintro ⟨⟨z, hzA, hyz⟩, t, ht, u, hu, hueq⟩
    refine ⟨z, ?_, hyz⟩
    unfold moveMap
    rw [List.mem_filter]
    refine ⟨hzA, ?_⟩
    rw [decide_eq_true_eq]
    refine ⟨scSub x.sticks t, (mem_removalVariants x.sticks _).2 ⟨t, ht, rfl⟩, ?_⟩
    rw [reachableFrom_iff_insert]
    exact ⟨u, hu, scEq_trans (hueq : scEq _ y.sticks) (hyz : scEq y.sticks z.sticks)⟩

/-- A horizontal stick at cell (0,0). -/
def stickH00 : Stick := ⟨0, 0, Orientation.horizontal⟩

/-- A vertical stick at cell (0,1). -/
def stickV01 : Stick := ⟨0, 1, Orientation.vertical⟩

/-- A two-stick glyph (one horizontal stick with a vertical stick one cell to
its right); used to refute the same-cell exclusion claimed for `moveMap`. -/
def cornerSym : Symbol :=
  ⟨{stickH00, stickV01}, "", "corner", SymKind.digit⟩

/-- Claim C8, counterexample: For the catalog over the single symbol
`cornerSym`, `moveMap[cornerSym]` contains `cornerSym` itself (the code allows
re-adding the removed stick at the identical cell), yet no removal of one
stick followed by an addition at a *different* cell reproduces `cornerSym`'s
shape — so `moveMap[s]` is strictly larger than the set described by the
claim. -/
theorem c8_counterexample :
    memBySym cornerSym (moveMap [cornerSym] cornerSym) ∧
    ¬ ∃ t ∈ cornerSym.sticks, ∃ u : Stick,
        ¬(u.row = t.row ∧ u.column = t.column) ∧
        scEq (scAdd (scSub cornerSym.sticks t) u) cornerSym.sticks := by
  constructor
  · exact ⟨cornerSym, by decide, symEq_refl cornerSym⟩
  · rintro ⟨t, ht, u, hcell, hsc⟩
    have hsticks : cornerSym.sticks = {stickH00, stickV01} := rfl
    obtain ⟨dr, dc, hshift⟩ := (scEq_iff_exists_shift _ _).1 hsc
    rcases Finset.mem_insert.1 (hsticks ▸ ht) with rfl | htv
    · -- the horizontal stick was removed
      have hsub : scSub cornerSym.sticks stickH00 = {stickV01} := by decide
      rw [hsub] at hshift
      unfold scAdd at hshift
      rw [shiftSet_insert] at hshift
      unfold shiftSet at hshift
      rw [Finset.image_singleton] at hshift
      have hH : stickH00 ∈ ({stickH00, stickV01} : Finset Stick) := by decide
      have hV : stickV01 ∈ ({stickH00, stickV01} : Finset Stick) := by decide
      rw [← hsticks, hshift] at hH hV
      have hH2 : stickH00 = shiftStick (dr, dc) u := by
        rcases Finset.mem_insert.1 hH with h | h
        · exact h
        · exact absurd (congrArg Stick.orientation (Finset.mem_singleton.1 h))
            (by simp [stickH00, stickV01, shiftStick])
      have hV2 : stickV01 = shiftStick (dr, dc) stickV01 := by
        rcases Finset.mem_insert.1 hV with h | h
        · exact absurd (hH2.trans h.symm) (by decide)
        · exact Finset.mem_singleton.1 h
      have hd : dr = 0 ∧ dc = 0 := by
        have h1 := congrArg Stick.row hV2
        have h2 := congrArg Stick.column hV2
        simp only [stickV01, shiftStick] at h1 h2
        omega
      apply hcell
      have h1 := congrArg Stick.row hH2
      have h2 := congrArg Stick.column hH2
      simp only [stickH00, shiftStick] at h1 h2
      exact ⟨by simp only [stickH00]; omega, by simp only [stickH00]; omega⟩
    · -- the vertical stick was removed
      have htv2 : t = stickV01 := Finset.mem_singleton.1 htv
      subst htv2
      have hsub : scSub cornerSym.sticks stickV01 = {stickH00} := by decide
      rw [hsub] at hshift
      unfold scAdd at hshift
      rw [shiftSet_insert] at hshift
      unfold shiftSet at hshift
      rw [Finset.image_singleton] at hshift
      have hH : stickH00 ∈ ({stickH00, stickV01} : Finset Stick) := by decide
      have hV : stickV01 ∈ ({stickH00, stickV01} : Finset Stick) := by decide
      rw [← hsticks, hshift] at hH hV
      have hV2 : stickV01 = shiftStick (dr, dc) u := by
        rcases Finset.mem_insert.1 hV with h | h
        · exact h
        · exact absurd (congrArg Stick.orientation (Finset.mem_singleton.1 h))
            (by simp [stickH00, stickV01, shiftStick])
      have hH2 : stickH00 = shiftStick (dr, dc) stickH00 := by
        rcases Finset.mem_insert.1 hH with h | h
        · exact absurd (hV2.trans h.symm) (by decide)
        · exact Finset.mem_singleton.1 h
      have hd : dr = 0 ∧ dc = 0 := by
        have h1 := congrArg Stick.row hH2
        have h2 := congrArg Stick.column hH2
        simp only [stickH00, shiftStick] at h1 h2
        omega
      apply hcell
      have h1 := congrArg Stick.row hV2
      have h2 := congrArg Stick.column hV2
      simp only [stickV01, shiftStick] at h1 h2
      exact ⟨by simp only [stickV01]; omega, by simp only [stickV01]; omega⟩


/-- A Python value produced by evaluating an expression string: a plain
integer, or a bool (Python's `is True` test distinguishes the two). -/
inductive PyVal where
  | int (n : Int)
  | bool (b : Bool)
deriving DecidableEq, Repr

/-- The `ValueError(self.code)` raised by `Expression.evaluate` when the
Python 2 `eval` raises `SyntaxError` (the spec's `InvalidExpression`). -/
inductive EvalErr where
  | invalidExpression
deriving DecidableEq, Repr

instance {e a : Type} [DecidableEq e] [DecidableEq a] : DecidableEq (Except e a) := fun x y =>
  match x, y with
  | .ok v, .ok w =>
    if h : v = w then isTrue (by rw [h]) else
      isFalse (by intro hc; injection hc; contradiction)
  | .error v, .error w =>
    if h : v = w then isTrue (by rw [h]) else
      isFalse (by intro hc; injection hc; contradiction)
  | .ok _, .error _ => isFalse (by intro hc; injection hc)
  | .error _, .ok _ => isFalse (by intro hc; injection hc)

/-- Value of a decimal integer literal. -/
def decVal (ds : List Char) : Int :=
  ds.foldl (fun a c => 10 * a + ((c.toNat : Int) - ('0'.toNat : Int))) 0

/-- Value of a Python 2 octal integer literal (leading `0`). -/
def octVal (ds : List Char) : Int :=
  ds.foldl (fun a c => 8 * a + ((c.toNat : Int) - ('0'.toNat : Int))) 0

/-- Read a Python 2 integer literal from the head of the string: a maximal
nonempty run of digits; a multi-digit literal starting with `0` is octal and
must consist of digits `0`-`7` only (`eval("08")` is a `SyntaxError` in
Python 2, while `eval("010")` is `8`). -/
def parseNumeral (cs : List Char) : Except EvalErr (Int × List Char) :=
  match cs.takeWhile Char.isDigit with
  | [] => .error .invalidExpression
  | d :: tail =>
    if d = '0' ∧ tail ≠ [] then
      if tail.all (fun c => c ≤ '7') then
        .ok (octVal (d :: tail), cs.dropWhile Char.isDigit)
      else .error .invalidExpression
    else .ok (decVal (d :: tail), cs.dropWhile Char.isDigit)

/-- A term of the Python grammar restricted to our token alphabet: any number
of unary `+`/`-` signs followed by an integer literal (Python 2 accepts
`-2`, `+2`, `--2` and so on in `eval`). -/
def parseTerm : List Char → Except EvalErr (Int × List Char)
  | [] => parseNumeral []
  | c :: cs =>
    if c = '+' then
      match parseTerm cs with
      | .ok (v, r) => .ok (v, r)
      | .error e => .error e
    else if c = '-' then
      match parseTerm cs with
      | .ok (v, r) => .ok (-v, r)
      | .error e => .error e
    else parseNumeral (c :: cs)

theorem parseNumeral_length (cs : List Char) (v : Int) (r : List Char)
    (h : parseNumeral cs = .ok (v, r)) : r.length ≤ cs.length := by
  unfold parseNumeral at h
  have hlen : (cs.dropWhile Char.isDigit).length ≤ cs.length :=
    (List.dropWhile_suffix _).length_le
  revert h
  cases heq : cs.takeWhile Char.isDigit with
  | nil =>
    intro h
    exact absurd h (by simp)
  | cons d tail =>
    dsimp only
    split_ifs
    · intro h
      injection h with h'
      injection h' with h1 h2
      subst h2
      exact hlen
    · intro h
      exact absurd h (by simp)
    · intro h
      injection h with h'
      injection h' with h1 h2
      subst h2
      exact hlen

theorem parseTerm_length (cs : List Char) : ∀ v r, parseTerm cs = .ok (v, r) →
    r.length ≤ cs.length := by
  induction cs with
  | nil =>
    intro v r h
    exact parseNumeral_length [] v r h
  | cons c cs ih =>
    intro v r h
    unfold parseTerm at h
    split_ifs at h with h1 h2
    · revert h
      split
      · rename_i v' r' heq
        intro h
        injection h with h'
        injection h' with hv hr
        subst hr
        exact Nat.le_succ_of_le (ih v' r' heq)
      · intro h
        exact absurd h (by simp)
    · revert h
      split
      · rename_i v' r' heq
        intro h
        injection h with h'
        injection h' with hv hr
        subst hr
        exact Nat.le_succ_of_le (ih v' r' heq)
      · intro h
        exact absurd h (by simp)
    · exact parseNumeral_length (c :: cs) v r h

/-- The left-associative tail of an additive expression: consume
`(('+'|'-') term)*` starting from the accumulated value `acc`.  The `fuel`
argument only makes the recursion structural: each step consumes at least the
operator character, so `cs.length` fuel always suffices, and
`arithTailF_irrel` shows the result does not depend on the exact fuel. -/
def arithTailF : Nat → Int → List Char → Except EvalErr (Int × List Char)
  | 0, acc, cs => .ok (acc, cs)
  | fuel + 1, acc, cs =>
    match cs with
    | [] => .ok (acc, [])
    | c :: cs' =>
      if c = '+' then
        match parseTerm cs' with
        | .ok (v, r) => arithTailF fuel (acc + v) r
        | .error e => .error e
      else if c = '-' then
        match parseTerm cs' with
        | .ok (v, r) => arithTailF fuel (acc - v) r
        | .error e => .error e
      else .ok (acc, c :: cs')

def arithTail (acc : Int) (cs : List Char) : Except EvalErr (Int × List Char) :=
  arithTailF cs.length acc cs

theorem arithTailF_irrel (fuel : Nat) : ∀ fuel2 acc cs, cs.length ≤ fuel →
    cs.length ≤ fuel2 → arithTailF fuel acc cs = arithTailF fuel2 acc cs := by
  induction fuel with
  | zero =>
    intro fuel2 acc cs h1 h2
    have hnil : cs = [] := List.length_eq_zero.1 (Nat.le_zero.1 h1)
    subst hnil
    cases fuel2 <;> rfl
  | succ fuel ih =>
    intro fuel2 acc cs h1 h2
    cases cs with
    | nil => cases fuel2 <;> rfl
    | cons c cs' =>
      simp only [List.length_cons] at h1 h2
      cases fuel2 with
      | zero => omega
      | succ f2 =>
        simp only [arithTailF]
        split_ifs
        · cases hp : parseTerm cs' with
          | ok vr =>
            obtain ⟨v, r⟩ := vr
            have hr := parseTerm_length cs' v r hp
            exact ih f2 (acc + v) r (by omega) (by omega)
          | error e => rfl
        · cases hp : parseTerm cs' with
          | ok vr =>
            obtain ⟨v, r⟩ := vr
            have hr := parseTerm_length cs' v r hp
            exact ih f2 (acc - v) r (by omega) (by omega)
          | error e => rfl
        · rfl

theorem arithTail_nil (acc : Int) : arithTail acc [] = .ok (acc, []) := rfl

theorem arithTail_cons (acc : Int) (c : Char) (cs' : List Char) :
    arithTail acc (c :: cs') =
      if c = '+' then
        match parseTerm cs' with
        | .ok (v, r) => arithTail (acc + v) r
        | .error e => .error e
      else if c = '-' then
        match parseTerm cs' with
        | .ok (v, r) => arithTail (acc - v) r
        | .error e => .error e
      else .ok (acc, c :: cs') := by
  show arithTailF (cs'.length + 1) acc (c :: cs') = _
  simp only [arithTailF]
  split_ifs
  · cases hp : parseTerm cs' with
    | ok vr =>
      obtain ⟨v, r⟩ := vr
      exact arithTailF_irrel cs'.length r.length (acc + v) r
        (parseTerm_length cs' v r hp) (Nat.le_refl _)
    | error e => rfl
  · cases hp : parseTerm cs' with
    | ok vr =>
      obtain ⟨v, r⟩ := vr
      exact arithTailF_irrel cs'.length r.length (acc - v) r
        (parseTerm_length cs' v r hp) (Nat.le_refl _)
    | error e => rfl
  · rfl

/-- An additive expression: `term (('+'|'-') term)*`. -/
def parseArith (cs : List Char) : Except EvalErr (Int × List Char) :=
  match parseTerm cs with
  | .ok (v, r) => arithTail v r
  | .error e => .error e

theorem arithTailF_length (fuel : Nat) : ∀ acc cs v r,
    arithTailF fuel acc cs = .ok (v, r) → r.length ≤ cs.length := by
  induction fuel with
  | zero =>
    intro acc cs v r h
    injection h with h'
    injection h' with hv hr
    subst hr
    exact Nat.le_refl _
  | succ fuel ih =>
    intro acc cs v r h
    cases cs with
    | nil =>
      injection h with h'
      injection h' with hv hr
      subst hr
      exact Nat.le_refl _
    | cons c cs' =>
      simp only [arithTailF] at h
      revert h
      split_ifs
      · cases hp : parseTerm cs' with
        | ok vr =>
          obtain ⟨v', r'⟩ := vr
          intro h
          have := ih (acc + v') r' v r h
          have := parseTerm_length cs' v' r' hp
          simp only [List.length_cons]
          omega
        | error e =>
          intro h
          exact absurd h (by simp)
      · cases hp : parseTerm cs' with
        | ok vr =>
          obtain ⟨v', r'⟩ := vr
          intro h
          have := ih (acc - v') r' v r h
          have := parseTerm_length cs' v' r' hp
          simp only [List.length_cons]
          omega
        | error e =>
          intro h
          exact absurd h (by simp)
      · intro h
        injection h with h'
        injection h' with hv hr
        subst hr
        exact Nat.le_refl _

theorem arithTail_length (acc : Int) (cs : List Char) (v : Int) (r : List Char)
    (h : arithTail acc cs = .ok (v, r)) : r.length ≤ cs.length :=
  arithTailF_length cs.length acc cs v r h

theorem parseArith_length (cs : List Char) (v : Int) (r : List Char)
    (h : parseArith cs = .ok (v, r)) : r.length ≤ cs.length := by
  unfold parseArith at h
  revert h
  split
  · rename_i v' r' heq
    intro h
    exact le_trans (arithTail_length v' r' v r h) (parseTerm_length cs v' r' heq)
  · intro h
    exact absurd h (by simp)

/-- The tail of a (possibly chained) comparison: consume
`(('=='|'!=') arith)*`, combining with Python's pairwise-and chain semantics.
A `=` or `!` not followed by `=` is a syntax error.  `fuel` makes the
recursion structural; each step consumes the two operator characters, so
`cs.length` fuel suffices (`cmpTailF_irrel`). -/
def cmpTailF : Nat → Int → Bool → List Char → Except EvalErr (Bool × List Char)
  | 0, _, acc, cs => .ok (acc, cs)
  | fuel + 1, prev, acc, cs =>
    match cs with
    | [] => .ok (acc, [])
    | c1 :: rest =>
      if c1 = '=' then
        match rest with
        | c2 :: cs' =>
          if c2 = '=' then
            match parseArith cs' with
            | .ok (v, r) => cmpTailF fuel v (acc && decide (prev = v)) r
            | .error e => .error e
          else .error .invalidExpression
        | [] => .error .invalidExpression
      else if c1 = '!' then
        match rest with
        | c2 :: cs' =>
          if c2 = '=' then
            match parseArith cs' with
            | .ok (v, r) => cmpTailF fuel v (acc && decide (¬ prev = v)) r
            | .error e => .error e
          else .error .invalidExpression
        | [] => .error .invalidExpression
      else .ok (acc, c1 :: rest)

def cmpTail (prev : Int) (acc : Bool) (cs : List Char) :
    Except EvalErr (Bool × List Char) :=
  cmpTailF cs.length prev acc cs

theorem cmpTailF_irrel (fuel : Nat) : ∀ fuel2 prev acc cs, cs.length ≤ fuel →
    cs.length ≤ fuel2 → cmpTailF fuel prev acc cs = cmpTailF fuel2 prev acc cs := by
  induction fuel with
  | zero =>
    intro fuel2 prev acc cs h1 h2
    have hnil : cs = [] := List.length_eq_zero.1 (Nat.le_zero.1 h1)
    subst hnil
    cases fuel2 <;> rfl
  | succ fuel ih =>
    intro fuel2 prev acc cs h1 h2
    cases cs with
    | nil => cases fuel2 <;> rfl
    | cons c1 rest =>
      simp only [List.length_cons] at h1 h2
      cases fuel2 with
      | zero => omega
      | succ f2 =>
        simp only [cmpTailF]
        split_ifs
        · cases rest with
          | nil => rfl
          | cons c2 cs' =>
            simp only [List.length_cons] at h1 h2
            dsimp only
            split_ifs
            · cases hp : parseArith cs' with
              | ok vr =>
                obtain ⟨v, r⟩ := vr
                have hr := parseArith_length cs' v r hp
                exact ih f2 v (acc && decide (prev = v)) r (by omega) (by omega)
              | error e => rfl
            · rfl
        · cases rest with
          | nil => rfl
          | cons c2 cs' =>
            simp only [List.length_cons] at h1 h2
            dsimp only
            split_ifs
            · cases hp : parseArith cs' with
              | ok vr =>
                obtain ⟨v, r⟩ := vr
                have hr := parseArith_length cs' v r hp
                exact ih f2 v (acc && decide (¬ prev = v)) r (by omega) (by omega)
              | error e => rfl
            · rfl
        · rfl

theorem cmpTail_nil (prev : Int) (acc : Bool) : cmpTail prev acc [] = .ok (acc, []) := rfl

theorem cmpTail_cons (prev : Int) (acc : Bool) (c1 : Char) (rest : List Char) :
    cmpTail prev acc (c1 :: rest) =
      (if c1 = '=' then
        match rest with
        | c2 :: cs' =>
          if c2 = '=' then
            match parseArith cs' with
            | .ok (v, r) => cmpTail v (acc && decide (prev = v)) r
            | .error e => .error e
          else .error .invalidExpression
        | [] => .error .invalidExpression
      else if c1 = '!' then
        match rest with
        | c2 :: cs' =>
          if c2 = '=' then
            match parseArith cs' with
            | .ok (v, r) => cmpTail v (acc && decide (¬ prev = v)) r
            | .error e => .error e
          else .error .invalidExpression
        | [] => .error .invalidExpression
      else .ok (acc, c1 :: rest)) := by
  show cmpTailF (rest.length + 1) prev acc (c1 :: rest) = _
  simp only [cmpTailF]
  split_ifs
  · cases rest with
    | nil => rfl
    | cons c2 cs' =>
      dsimp only
      split_ifs
      · cases hp : parseArith cs' with
        | ok vr =>
          obtain ⟨v, r⟩ := vr
          exact cmpTailF_irrel (cs'.length + 1) r.length v _ r
            (by have := parseArith_length cs' v r hp; omega) (Nat.le_refl _)
        | error e => rfl
      · rfl
  · cases rest with
    | nil => rfl
    | cons c2 cs' =>
      dsimp only
      split_ifs
      · cases hp : parseArith cs' with
        | ok vr =>
          obtain ⟨v, r⟩ := vr
          exact cmpTailF_irrel (cs'.length + 1) r.length v _ r
            (by have := parseArith_length cs' v r hp; omega) (Nat.le_refl _)
        | error e => rfl
      · rfl
  · rfl


/-- The embedding of Python 2 `eval` on the token strings this program can
produce (digits, `+`, `-`, `==`, `!=`): evaluate an additive expression,
optionally followed by a comparison chain; the whole string must be consumed.
Returns a plain integer when no comparison is present, a bool otherwise. -/
def exprEval (cs : List Char) : Except EvalErr PyVal :=
  match parseArith cs with
  | .error e => .error e
  | .ok (v, r) =>
    match r with
    | [] => .ok (.int v)
    | _ =>
      match cmpTail v true r with
      | .error e => .error e
      | .ok (b, r2) =>
        match r2 with
        | [] => .ok (.bool b)
        | _ => .error .invalidExpression

/-- Model of `Expression.code`: the concatenation of the member symbols' code tokens,
as a list of characters (a blank digit contributes the empty string). -/
def codeChars (syms : List Symbol) : List Char :=
  (syms.map fun s => s.code.data).flatten

/-- The positions of the `EqualityOperator` members, in order
(`[i for i, s in enumerate(self.symbols) if isinstance(s, EqualityOperator)]`). -/
def equalityIndices (syms : List Symbol) : List Nat :=
  (syms.enum.filter fun p => decide (p.2.kind = SymKind.equalityOperator)).map Prod.fst

theorem equalityIndices_lt (syms : List Symbol) :
    ∀ i ∈ equalityIndices syms, i < syms.length := by
  intro i hi
  unfold equalityIndices at hi
  rw [List.mem_map] at hi
  obtain ⟨p, hp, rfl⟩ := hi
  rw [List.mem_filter] at hp
  obtain ⟨hp, -⟩ := hp
  rw [List.enum_eq_zip_range] at hp
  have := (List.of_mem_zip hp).1
  exact List.mem_range.1 this

/-- The boundary pairs from `Expression.evaluate`
(`zip([-1] + equality_operators[:-1], equality_operators[1:] + [len])`),
with the `+1` of the Python slice `[(low+1):high]` folded into the lower
bounds so they stay natural numbers. -/
def chainBounds (syms : List Symbol) : List (Nat × Nat) :=
  List.zip (0 :: (equalityIndices syms).dropLast.map (· + 1))
    ((equalityIndices syms).tail ++ [syms.length])

/-- The overlapping pairwise sub-expressions of a chained equality
(`self.symbols[(low+1):high]` for each boundary pair). -/
def subexpressions (syms : List Symbol) : List (List Symbol) :=
  (chainBounds syms).map fun b => (syms.drop b.1).take (b.2 - b.1)

theorem subexpressions_length_lt (syms : List Symbol)
    (h : 1 < (equalityIndices syms).length) :
    ∀ sub ∈ subexpressions syms, sub.length < syms.length := by
  intro sub hsub
  unfold subexpressions chainBounds at hsub
  rw [List.mem_map] at hsub
  obtain ⟨⟨lo, hi⟩, hmem, rfl⟩ := hsub
  match heq : equalityIndices syms with
  | [] => rw [heq] at h; simp at h
  | [e0] => rw [heq] at h; simp at h
  | e0 :: e1 :: es =>
    have hlen : 1 ≤ syms.length := by
      have := equalityIndices_lt syms e0 (by rw [heq]; exact List.mem_cons_self _ _)
      omega
    rw [heq] at hmem
    have hdrop : (e0 :: e1 :: es).dropLast = e0 :: (e1 :: es).dropLast := rfl
    have htail : (e0 :: e1 :: es).tail = e1 :: es := rfl
    rw [hdrop, htail, List.map_cons] at hmem
    have hzip : List.zip (0 :: (e0 + 1) :: ((e1 :: es).dropLast.map (· + 1)))
        ((e1 :: es) ++ [syms.length])
        = (0, e1) :: List.zip ((e0 + 1) :: ((e1 :: es).dropLast.map (· + 1)))
            (es ++ [syms.length]) := rfl
    rw [hzip] at hmem
    rcases List.mem_cons.1 hmem with hhead | htl
    · injection hhead with hlo hhi
      subst hlo; subst hhi
      have he1 : hi < syms.length := equalityIndices_lt syms hi
        (by rw [heq]; exact List.mem_cons_of_mem _ (List.mem_cons_self _ _))
      simp only [List.drop_zero, List.length_take]
      omega
    · have hlo : lo ∈ (e0 + 1) :: ((e1 :: es).dropLast.map (· + 1)) :=
        (List.of_mem_zip htl).1
      have hlo1 : 1 ≤ lo := by
        rcases List.mem_cons.1 hlo with rfl | hlo'
        · omega
        · obtain ⟨x, -, rfl⟩ := List.mem_map.1 hlo'
          omega
      simp only [List.length_take, List.length_drop]
      omega

/-- Python truthiness of a `PyVal` (what `and` branches on). -/
def pyTruthy : PyVal → Bool
  | .int n => decide (¬ n = 0)
  | .bool b => b

/-- One step of the Python loop `result = result and exp.evaluate()`.  When
the accumulator is an uncaught exception the loop has already aborted; when
the accumulated value is falsy, `and` returns it without looking at (or, in
Python, without even computing) the right operand — the step function ignores
`r` in exactly those cases, so folding over eagerly computed sub-results is
observationally identical to the short-circuiting loop. -/
def chainStep (acc : Except EvalErr PyVal) (r : Except EvalErr PyVal) :
    Except EvalErr PyVal :=
  match acc with
  | .error e => .error e
  | .ok v => if pyTruthy v then r else .ok v

/-- Model of `Expression.evaluate`, with a structural `fuel` argument: with more than
one equality operator, split at the boundary pairs and fold the
sub-evaluations with Python `and` starting from `True`; otherwise hand the
code string to the Python 2 `eval` (`exprEval`), with `SyntaxError` re-raised
as `InvalidExpression`.  Every sub-expression is strictly shorter than the
whole (`subexpressions_length_lt`), so `syms.length` fuel always suffices and
the fuel value is irrelevant (`evaluateF_irrel`). -/
def evaluateF : Nat → List Symbol → Except EvalErr PyVal
  | 0, syms => exprEval (codeChars syms)
  | fuel + 1, syms =>
    if 1 < (equalityIndices syms).length then
      ((subexpressions syms).map (evaluateF fuel)).foldl chainStep (.ok (.bool true))
    else exprEval (codeChars syms)

/-- Model of `Expression.evaluate`. -/
def evaluate (syms : List Symbol) : Except EvalErr PyVal :=
  evaluateF syms.length syms

theorem equalityIndices_nil : equalityIndices [] = [] := rfl

theorem evaluateF_irrel (fuel : Nat) : ∀ fuel2 syms, syms.length ≤ fuel →
    syms.length ≤ fuel2 → evaluateF fuel syms = evaluateF fuel2 syms := by
  induction fuel with
  | zero =>
    intro fuel2 syms h1 h2
    have hnil : syms = [] := List.length_eq_zero.1 (Nat.le_zero.1 h1)
    subst hnil
    cases fuel2 with
    | zero => rfl
    | succ f2 =>
      simp only [evaluateF]
      rw [if_neg]
      rw [equalityIndices_nil]
      simp
  | succ fuel ih =>
    intro fuel2 syms h1 h2
    cases fuel2 with
    | zero =>
      have hnil : syms = [] := List.length_eq_zero.1 (Nat.le_zero.1 h2)
      subst hnil
      simp only [evaluateF]
      rw [if_neg]
      rw [equalityIndices_nil]
      simp
    | succ f2 =>
      simp only [evaluateF]
      by_cases hc : 1 < (equalityIndices syms).length
      · rw [if_pos hc, if_pos hc]
        congr 1
        apply List.map_congr_left
        intro sub hsub
        have hlt := subexpressions_length_lt syms hc sub hsub
        exact ih f2 sub (by omega) (by omega)
      · rw [if_neg hc, if_neg hc]

theorem evaluate_single (syms : List Symbol)
    (h : ¬ 1 < (equalityIndices syms).length) :
    evaluate syms = exprEval (codeChars syms) := by
  show evaluateF syms.length syms = _
  cases hn : syms.length with
  | zero => rfl
  | succ n =>
    simp only [evaluateF]
    rw [if_neg h]

theorem evaluate_chain (syms : List Symbol)
    (h : 1 < (equalityIndices syms).length) :
    evaluate syms = ((subexpressions syms).map evaluate).foldl
      chainStep (.ok (.bool true)) := by
  show evaluateF syms.length syms = _
  have hpos : 1 ≤ syms.length := by
    match heq : equalityIndices syms with
    | [] => rw [heq] at h; simp at h
    | e0 :: es =>
      have := equalityIndices_lt syms e0 (by rw [heq]; exact List.mem_cons_self _ _)
      omega
  match hn : syms.length with
  | 0 => omega
  | n + 1 =>
    simp only [evaluateF]
    rw [if_pos h]
    congr 1
    apply List.map_congr_left
    intro sub hsub
    have hlt := subexpressions_length_lt syms h sub hsub
    exact evaluateF_irrel n sub.length sub (by omega) (Nat.le_refl _)

/-- The `ValueError` raised by `Symbol.with_pattern` (the spec's `ShapeError`
when a declared stick falls outside the glyph template; `badChar` for an
unrecognized pattern character, also a `ValueError` in the source). -/
inductive PatternErr where
  | badChar
  | shapeError
deriving DecidableEq, Repr

/-- Insert an integer into a sorted duplicate-free list, keeping it sorted
and duplicate-free. -/
def insertSorted (x : Int) : List Int → List Int
  | [] => [x]
  | y :: ys =>
    if x < y then x :: y :: ys
    else if x = y then y :: ys
    else y :: insertSorted x ys

/-- Python `sorted(set(...))`: the distinct values in ascending order. -/
def sortedDistinct (l : List Int) : List Int :=
  l.foldr insertSorted []

/-- Model of `all_rows = sorted({stick.row for stick in all_sticks})` from
`Symbol.with_pattern`. -/
def templateRows (tmpl : List Stick) : List Int :=
  sortedDistinct (tmpl.map Stick.row)

/-- Model of `all_cols = sorted({stick.column for stick in all_sticks})` from
`Symbol.with_pattern`. -/
def templateCols (tmpl : List Stick) : List Int :=
  sortedDistinct (tmpl.map Stick.column)

/-- Decode one pattern character at a grid cell (`"|"`, `"_"`, `"+"`, `" "`;
anything else raises `ValueError(pattern)`). -/
def decodeCell (r c : Int) (ch : Char) : Except PatternErr (List Stick) :=
  if ch = '|' then .ok [⟨r, c, Orientation.vertical⟩]
  else if ch = '_' then .ok [⟨r, c, Orientation.horizontal⟩]
  else if ch = '+' then .ok [⟨r, c, Orientation.vertical⟩, ⟨r, c, Orientation.horizontal⟩]
  else if ch = ' ' then .ok []
  else .error .badChar

/-- The sticks declared by a pattern: `zip(all_rows, pattern)` and
`zip(all_cols, row_pattern)` pair declared grid lines with pattern cells
positionally, silently dropping any excess on either side. -/
def decodeSticks (tmpl : List Stick) (pattern : List (List Char)) :
    Except PatternErr (List (List (List Stick))) :=
  (List.zip (templateRows tmpl) pattern).mapM fun rp =>
    (List.zip (templateCols tmpl) rp.2).mapM fun cp => decodeCell rp.1 cp.1 cp.2

/-- Model of `Symbol.with_pattern`: decode the pattern over the declared grid, then
fail (`if sticks - all_sticks: raise ValueError(pattern)`) if any declared
stick is not a template stick; otherwise build the `StickCollection`. -/
def withPattern (tmpl : List Stick) (pattern : List (List Char)) :
    Except PatternErr (Finset Stick) :=
  match decodeSticks tmpl pattern with
  | .error e => .error e
  | .ok ls =>
    if (ls.flatten.flatten).any (fun s => decide (¬ s ∈ tmpl)) then .error .shapeError
    else .ok (ls.flatten.flatten).toFinset

/-- Model of `_DIGIT_STICKS` (the template grid of a digit glyph), in the iteration
order of `StickCollection.from_dict`. -/
def digitTemplate : List Stick :=
  [⟨0, 1, Orientation.horizontal⟩,
   ⟨4, 0, Orientation.vertical⟩, ⟨4, 1, Orientation.horizontal⟩, ⟨4, 2, Orientation.vertical⟩,
   ⟨8, 0, Orientation.vertical⟩, ⟨8, 1, Orientation.horizontal⟩, ⟨8, 2, Orientation.vertical⟩]

/-- Model of `_OPERATOR_STICKS` (the template grid of an operator glyph). -/
def operatorTemplate : List Stick :=
  [⟨1, 1, Orientation.horizontal⟩, ⟨2, 1, Orientation.horizontal⟩,
   ⟨3, 1, Orientation.horizontal⟩, ⟨4, 1, Orientation.vertical⟩]

/-- The stick set of a successfully constructed glyph (every catalog glyph in
the source constructs successfully; the fallback is never reached there). -/
def patternSticks (tmpl : List Stick) (pattern : List String) : Finset Stick :=
  match withPattern tmpl (pattern.map String.data) with
  | .ok s => s
  | .error _ => ∅

def blank : Symbol :=
  ⟨patternSticks digitTemplate ["   ", "   ", "   "], "", "blank", SymKind.digit⟩

def zero : Symbol :=
  ⟨patternSticks digitTemplate [" _ ", "| |", "|_|"], "0", "zero", SymKind.digit⟩

def one_a : Symbol :=
  ⟨patternSticks digitTemplate ["   ", "|  ", "|  "], "1", "one_double", SymKind.digit⟩

def one_b : Symbol :=
  ⟨patternSticks digitTemplate ["   ", "|  ", "   "], "1", "one_single", SymKind.digit⟩

def two : Symbol :=
  ⟨patternSticks digitTemplate [" _ ", " _|", "|_ "], "2", "two", SymKind.digit⟩

def three : Symbol :=
  ⟨patternSticks digitTemplate [" _ ", " _|", " _|"], "3", "three", SymKind.digit⟩

def four : Symbol :=
  ⟨patternSticks digitTemplate ["   ", "|_|", "  |"], "4", "four", SymKind.digit⟩

def five : Symbol :=
  ⟨patternSticks digitTemplate [" _ ", "|_ ", " _|"], "5", "five", SymKind.digit⟩

def six_a : Symbol :=
  ⟨patternSticks digitTemplate [" _ ", "|_ ", "|_|"], "6", "six", SymKind.digit⟩

def six_b : Symbol :=
  ⟨patternSticks digitTemplate ["   ", "|_ ", "|_|"], "6", "six_alt", SymKind.digit⟩

def seven_a : Symbol :=
  ⟨patternSticks digitTemplate [" _ ", "  |", "  |"], "7", "seven", SymKind.digit⟩

def seven_b : Symbol :=
  ⟨patternSticks digitTemplate [" _ ", "| |", "  |"], "7", "seven_alt", SymKind.digit⟩

def eight : Symbol :=
  ⟨patternSticks digitTemplate [" _ ", "|_|", "|_|"], "8", "eight", SymKind.digit⟩

def nine_a : Symbol :=
  ⟨patternSticks digitTemplate [" _ ", "|_|", "  |"], "9", "nine", SymKind.digit⟩

def nine_b : Symbol :=
  ⟨patternSticks digitTemplate [" _ ", "|_|", " _|"], "9", "nine_alt", SymKind.digit⟩

def plus_a : Symbol :=
  ⟨patternSticks operatorTemplate ["_", " ", " ", "|"], "+", "plus_high", SymKind.operator⟩

def plus_b : Symbol :=
  ⟨patternSticks operatorTemplate [" ", "_", " ", "|"], "+", "plus", SymKind.operator⟩

def plus_c : Symbol :=
  ⟨patternSticks operatorTemplate [" ", " ", "_", "|"], "+", "plus_low", SymKind.operator⟩

def minus : Symbol :=
  ⟨patternSticks operatorTemplate ["_", " ", " ", " "], "-", "minus", SymKind.operator⟩

def eq_a : Symbol :=
  ⟨patternSticks operatorTemplate ["_", "_", " ", " "], "==", "eq",
    SymKind.equalityOperator⟩

def eq_b : Symbol :=
  ⟨patternSticks operatorTemplate ["_", " ", "_", " "], "==", "eq_alt",
    SymKind.equalityOperator⟩

def neq_a : Symbol :=
  ⟨patternSticks operatorTemplate ["_", "_", " ", "|"], "!=", "neq_high",
    SymKind.equalityOperator⟩

def neq_b : Symbol :=
  ⟨patternSticks operatorTemplate ["_", " ", "_", "|"], "!=", "neq",
    SymKind.equalityOperator⟩

def neq_c : Symbol :=
  ⟨patternSticks operatorTemplate [" ", "_", "_", "|"], "!=", "neq_low",
    SymKind.equalityOperator⟩

/-- Model of `DIGITS`. -/
def DIGITS : List Symbol :=
  [blank, zero, one_a, one_b, two, three, four, five, six_a, six_b,
   seven_a, seven_b, eight, nine_a, nine_b]

/-- Model of `OPERATORS`. -/
def OPERATORS : List Symbol :=
  [plus_a, plus_b, plus_c, minus, eq_a, eq_b, neq_a, neq_b, neq_c]

/-- The alphabet of `symbols = SymbolCollection(DIGITS + OPERATORS)`. -/
def allSymbols : List Symbol :=
  DIGITS ++ OPERATORS

/-- The base puzzle `expression` (`6+4=4`). -/
def baseExpression : List Symbol :=
  [blank, six_a, blank, plus_b, blank, four, blank, eq_b, blank, four, blank]

theorem chainStep_false (r : Except EvalErr PyVal) :
    chainStep (.ok (.bool false)) r = .ok (.bool false) := rfl

theorem chainStep_true (r : Except EvalErr PyVal) :
    chainStep (.ok (.bool true)) r = r := rfl

theorem chainStep_error (e : EvalErr) (r : Except EvalErr PyVal) :
    chainStep (.error e) r = .error e := rfl

theorem foldl_chainStep_error (rs : List (Except EvalErr PyVal)) (e : EvalErr) :
    rs.foldl chainStep (.error e) = .error e := by
  induction rs with
  | nil => rfl
  | cons r rs ih => rw [List.foldl_cons, chainStep_error]; exact ih

theorem foldl_chainStep_false (rs : List (Except EvalErr PyVal)) :
    rs.foldl chainStep (.ok (.bool false)) = .ok (.bool false) := by
  induction rs with
  | nil => rfl
  | cons r rs ih => rw [List.foldl_cons, chainStep_false]; exact ih

theorem foldl_chainStep_bools (bs : List Bool) : ∀ acc : Bool,
    (bs.map fun b => (Except.ok (PyVal.bool b) : Except EvalErr PyVal)).foldl
      chainStep (.ok (.bool acc)) = .ok (.bool (acc && bs.all id)) := by
  induction bs with
  | nil =>
    intro acc
    simp
  | cons b bs ih =>
    intro acc
    rw [List.map_cons, List.foldl_cons]
    cases acc
    · rw [chainStep_false, foldl_chainStep_false]
      simp
    · rw [chainStep_true, ih b]
      simp

/-- Claim C2: With more than one equality operator, `evaluate()` agrees with
independently evaluating each of the overlapping pairwise sub-expressions and
taking the logical AND of the sub-results; there are as many sub-expressions
as equality signs; in particular `2==2==2` and `2==2==2==2` evaluate to true
while `2==2==3` and `2==2==1==2` evaluate to false. -/
theorem c2_chain_is_pairwise_and (syms : List Symbol)
    (h : 1 < (equalityIndices syms).length) (bs : List Bool)
    (hbs : (subexpressions syms).map evaluate
      = bs.map fun b => (Except.ok (PyVal.bool b) : Except EvalErr PyVal)) :
    (evaluate syms = .ok (.bool (bs.all id)) ∧
      (subexpressions syms).length = (equalityIndices syms).length) ∧
    evaluate [two, eq_a, two, eq_a, two] = .ok (.bool true) ∧
    evaluate [two, eq_a, two, eq_a, three] = .ok (.bool false) ∧
    evaluate [two, eq_a, two, eq_a, two, eq_a, two] = .ok (.bool true) ∧
    evaluate [two, eq_a, two, eq_a, one_b, eq_a, two] = .ok (.bool false) := by
  refine ⟨⟨?_, ?_⟩, by decide, by decide, by decide, by decide⟩
  · rw [evaluate_chain syms h, hbs, foldl_chainStep_bools bs true]
    simp
  · unfold subexpressions chainBounds
    rw [List.length_map, List.length_zip]
    simp only [List.length_cons, List.length_map, List.length_dropLast,
      List.length_append, List.length_tail, List.length_singleton]
    omega

theorem c2_witness :
    1 < (equalityIndices [two, eq_a, two, eq_a, three]).length ∧
    ((subexpressions [two, eq_a, two, eq_a, three]).map evaluate
      = [true, false].map fun b => (Except.ok (PyVal.bool b) : Except EvalErr PyVal)) ∧
    ((evaluate [two, eq_a, two, eq_a, three] = .ok (.bool ([true, false].all id)) ∧
      (subexpressions [two, eq_a, two, eq_a, three]).length
        = (equalityIndices [two, eq_a, two, eq_a, three]).length) ∧
      evaluate [two, eq_a, two, eq_a, two] = .ok (.bool true) ∧
      evaluate [two, eq_a, two, eq_a, three] = .ok (.bool false) ∧
      evaluate [two, eq_a, two, eq_a, two, eq_a, two] = .ok (.bool true) ∧
      evaluate [two, eq_a, two, eq_a, one_b, eq_a, two] = .ok (.bool false)) :=
  ⟨by decide, by decide,
    c2_chain_is_pairwise_and [two, eq_a, two, eq_a, three] (by decide)
      [true, false] (by decide)⟩

/-- Claim C3, counterexample: In the chain `2==3==+` the second pairwise
sub-expression `3==+` fails with `InvalidExpression`, yet the whole chain
evaluates to `False` without raising: after the first sub-expression is
`False`, the Python `and` short-circuits and the failing sub-expression is
never evaluated. -/
theorem c3_counterexample :
    subexpressions [two, eq_a, three, eq_a, plus_b]
      = [[two, eq_a, three], [three, eq_a, plus_b]] ∧
    evaluate [three, eq_a, plus_b] = .error .invalidExpression ∧
    evaluate [two, eq_a, three, eq_a, plus_b] = .ok (.bool false) := by
  refine ⟨by decide, by decide, by decide⟩

/-- Claim C3, amended: An `InvalidExpression` error in a pairwise
sub-expression propagates as the chain's error provided every sub-expression
before it evaluated to `True`; once some earlier sub-expression evaluates to
a falsy value, later sub-expressions (and their errors) are skipped. -/
theorem c3_error_propagates_before_false (syms : List Symbol)
    (h : 1 < (equalityIndices syms).length)
    (pre rest : List (List Symbol)) (failing : List Symbol) (e : EvalErr)
    (hsplit : subexpressions syms = pre ++ failing :: rest)
    (hpre : ∀ p ∈ pre, evaluate p = .ok (.bool true))
    (hfail : evaluate failing = .error e) :
    evaluate syms = .error e := by
  rw [evaluate_chain syms h, hsplit, List.map_append, List.foldl_append]
  have hppre : (pre.map evaluate).foldl chainStep (.ok (.bool true))
      = .ok (.bool true) := by
    clear hsplit
    induction pre with
    | nil => rfl
    | cons p ps ih =>
      rw [List.map_cons, List.foldl_cons, hpre p (List.mem_cons_self _ _),
        chainStep_true]
      exact ih fun q hq => hpre q (List.mem_cons_of_mem _ hq)
  rw [hppre, List.map_cons, List.foldl_cons, hfail, chainStep_true,
    foldl_chainStep_error]

theorem c3_witness :
    1 < (equalityIndices [three, eq_a, plus_b, eq_a, two]).length ∧
    subexpressions [three, eq_a, plus_b, eq_a, two]
      = [] ++ [three, eq_a, plus_b] :: [[plus_b, eq_a, two]] ∧
    evaluate [three, eq_a, plus_b] = .error .invalidExpression ∧
    evaluate [three, eq_a, plus_b, eq_a, two] = .error .invalidExpression :=
  ⟨by decide, by decide, by decide,
    c3_error_propagates_before_false [three, eq_a, plus_b, eq_a, two] (by decide)
      [] [[plus_b, eq_a, two]] [three, eq_a, plus_b] .invalidExpression
      (by decide) (by intro p hp; exact absurd hp (List.not_mem_nil p)) (by decide)⟩

/-- Claim C9, counterexample: A digit pattern with four rows — one more than
the declared three-row digit grid — whose extra row declares a stick does not
raise a `ShapeError`: the `zip` in `with_pattern` silently drops the extra
row, and construction succeeds (here with an empty shape). -/
theorem c9_counterexample :
    withPattern digitTemplate (["   ", "   ", "   ", "|  "].map String.data)
      = .ok ∅ := by decide

theorem zip_take_length {α β : Type} (l : List α) : ∀ xs : List β,
    l.zip (xs.take l.length) = l.zip xs := by
  induction l with
  | nil => intro xs; rfl
  | cons a l ih =>
    intro xs
    cases xs with
    | nil => rfl
    | cons x xs =>
      simp only [List.length_cons, List.take_succ_cons, List.zip_cons_cons]
      rw [ih xs]

/-- Claim C9, amended: When the pattern's characters all decode, construction
fails — with the spec's `ShapeError` — exactly when some decoded stick
(declared rows/columns being paired with pattern cells positionally by `zip`)
is not one of the template's sticks; pattern rows beyond the declared grid
are ignored, so taking only the first `len(all_rows)` pattern rows changes
nothing. -/
theorem c9_shape_error_characterization (tmpl : List Stick)
    (pattern : List (List Char)) (ls : List (List (List Stick)))
    (hok : decodeSticks tmpl pattern = .ok ls) :
    (withPattern tmpl pattern = .error .shapeError ↔
      ∃ s ∈ ls.flatten.flatten, s ∉ tmpl) ∧
    withPattern tmpl pattern
      = withPattern tmpl (pattern.take (templateRows tmpl).length) := by
  constructor
  · unfold withPattern
    rw [hok]
    dsimp only
    by_cases hany : (ls.flatten.flatten).any (fun s => decide (¬ s ∈ tmpl)) = true
    · rw [if_pos hany]
      simp only [List.any_eq_true, decide_eq_true_eq] at hany
      exact iff_of_true rfl hany
    · rw [if_neg hany]
      simp only [List.any_eq_true, decide_eq_true_eq] at hany
      constructor
      · intro hc
        exact absurd hc (by simp)
      · intro hc
        exact absurd hc hany
  · unfold withPattern decodeSticks
    rw [zip_take_length]

theorem c9_witness :
    decodeSticks digitTemplate (["|  ", "   ", "   "].map String.data)
      = .ok [[[⟨0, 0, Orientation.vertical⟩], [], []], [[], [], []], [[], [], []]] ∧
    ((withPattern digitTemplate (["|  ", "   ", "   "].map String.data)
        = .error .shapeError ↔
      ∃ s ∈ ([[[(⟨0, 0, Orientation.vertical⟩ : Stick)], [], []], [[], [], []],
          [[], [], []]] : List (List (List Stick))).flatten.flatten,
        s ∉ digitTemplate) ∧
      withPattern digitTemplate (["|  ", "   ", "   "].map String.data)
        = withPattern digitTemplate
            ((["|  ", "   ", "   "].map String.data).take
              (templateRows digitTemplate).length)) :=
  ⟨by decide,
    c9_shape_error_characterization digitTemplate _ _ (by decide)⟩

/-- The `AttributeError` raised by the lookup `other.sticks__`. -/
inductive PyAttrErr where
  | attributeError
deriving DecidableEq, Repr

/-- The attribute `sticks__` read by `Symbol.__ne__`: a `Symbol` object has
only the attributes `name`, `sticks`, `code` and `display_code` (set in
`Symbol.__init__`), so this lookup finds nothing. -/
def sticksDunderAttr (_s : Symbol) : Option (Finset Stick) :=
  none

/-- Model of `Symbol.__ne__`: `return self.sticks != other.sticks__`.  The attribute
lookup is evaluated first; were it to succeed the comparison would use
`StickCollection.__ne__` (negated normalized-shape equality). -/
def symNe (a b : Symbol) : Except PyAttrErr Bool :=
  match sticksDunderAttr b with
  | none => .error .attributeError
  | some t => .ok (decide (¬ scEq a.sticks t))

/-- Model of `Symbol.__eq__` as a total boolean function of the two shapes. -/
def symEqB (a b : Symbol) : Bool :=
  decide (scEq a.sticks b.sticks)

/-- Claim C10: `Symbol.__ne__` always fails with an `AttributeError` (it reads
the nonexistent attribute `sticks__`), so Symbol inequality never produces a
boolean at all — in particular it is not the logical negation of
`Symbol.__eq__` — while `Symbol.__eq__` itself is total and decided solely by
translation-invariant shape equality. -/
theorem c10_ne_always_raises (a b : Symbol) :
    symNe a b = .error .attributeError ∧
    (∀ r : Bool, ¬ symNe a b = .ok r) ∧
    (symEqB a b = true ↔ scEq a.sticks b.sticks) := by
  refine ⟨rfl, ?_, by simp [symEqB]⟩
  intro r hc
  exact absurd (rfl.symm.trans hc) (by simp [symNe, sticksDunderAttr])

theorem c10_witness :
    symNe wSymA wSymB = .error .attributeError ∧
    (∀ r : Bool, ¬ symNe wSymA wSymB = .ok r) ∧
    (symEqB wSymA wSymB = true ↔ scEq wSymA.sticks wSymB.sticks) :=
  c10_ne_always_raises wSymA wSymB

/-- Model of `Expression.substitute_symbol`: a copy of the symbol list with the symbol
at the given index replaced. -/
def substituteSymbol (syms : List Symbol) (newSymbol : Symbol) (index : Nat) :
    List Symbol :=
  syms.set index newSymbol

/-- One write into the nested `valid_substitutions` dict: the key
`(source_index, dest_index, new_source_symbol.code, new_dest_symbol.code)`
and the substituted expression stored under it. -/
structure SubRecord where
  sourceIndex : Nat
  destIndex : Nat
  sourceCode : String
  destCode : String
  expr : List Symbol
deriving DecidableEq

/-- Model of `_test_substitution`: build the substituted expression and evaluate it;
a `ValueError` is caught and nothing is recorded (`return`); otherwise a
record is written only when `result is True` — exactly the boolean `True`,
never a truthy integer. -/
def testSubstitution (base : List Symbol) (sourceIndex destIndex : Nat)
    (newSource newDest : Symbol) : Option SubRecord :=
  let newExpression :=
    substituteSymbol (substituteSymbol base newSource sourceIndex) newDest destIndex
  match evaluate newExpression with
  | .error _ => none
  | .ok result =>
    if result = .bool true then
      some ⟨sourceIndex, destIndex, newSource.code, newDest.code, newExpression⟩
    else none

/-- The substitution search: every ordered pair of positions of the base
expression; for `i == j` each move candidate replaces position `i` (the same
candidate passed twice, as in `_test_substitution(i, i, c, c)`); for `i ≠ j`
each removal candidate at `i` is paired with each addition candidate at `j`.
The successful writes are collected in loop order (the Python dict keeps the
last write per key; every write satisfies the recording condition, so
membership in this list covers everything recorded). -/
def validSubstitutions (cat : List Symbol) (base : List Symbol) : List SubRecord :=
  base.enum.flatMap fun si =>
    base.enum.flatMap fun di =>
      if si.1 = di.1 then
        (moveMap cat si.2).filterMap fun c =>
          testSubstitution base si.1 di.1 c c
      else
        (removalMap cat si.2).flatMap fun nsrc =>
          (additionMap cat di.2).filterMap fun ndst =>
            testSubstitution base si.1 di.1 nsrc ndst

theorem testSubstitution_some (base : List Symbol) (i j : Nat)
    (ns nd : Symbol) (rec : SubRecord)
    (h : testSubstitution base i j ns nd = some rec) :
    evaluate rec.expr = .ok (.bool true) := by
  unfold testSubstitution at h
  dsimp only at h
  cases heval : evaluate (substituteSymbol (substituteSymbol base ns i) nd j) with
  | error e =>
    rw [heval] at h
    exact absurd h (by simp)
  | ok result =>
    rw [heval] at h
    dsimp only at h
    split_ifs at h with htrue
    injection h with h'
    subst h'
    dsimp only
    rw [heval, htrue]

/-- Claim C1: Every record written by the substitution search holds a candidate
whose evaluation succeeded with exactly the boolean `True` (a candidate whose
result is a non-boolean integer, truthy or not, fails the `result is True`
test and is never recorded); and a candidate whose evaluation fails produces
no record at all — the `ValueError` is swallowed and the search continues. -/
theorem c1_search_records_only_true (cat base : List Symbol) (rec : SubRecord)
    (hrec : rec ∈ validSubstitutions cat base) :
    evaluate rec.expr = .ok (.bool true) ∧
    ∀ i j ns nd e,
      evaluate (substituteSymbol (substituteSymbol base ns i) nd j) = .error e →
        testSubstitution base i j ns nd = none := by
  constructor
  · unfold validSubstitutions at hrec
    rw [List.mem_flatMap] at hrec
    obtain ⟨si, -, hrec⟩ := hrec
    rw [List.mem_flatMap] at hrec
    obtain ⟨di, -, hrec⟩ := hrec
    by_cases hij : si.1 = di.1
    · rw [if_pos hij, List.mem_filterMap] at hrec
      obtain ⟨c, -, hsome⟩ := hrec
      exact testSubstitution_some base si.1 di.1 c c rec hsome
    · rw [if_neg hij, List.mem_flatMap] at hrec
      obtain ⟨nsrc, -, hrec⟩ := hrec
      rw [List.mem_filterMap] at hrec
      obtain ⟨ndst, -, hsome⟩ := hrec
      exact testSubstitution_some base si.1 di.1 nsrc ndst rec hsome
  · intro i j ns nd e h
    unfold testSubstitution
    dsimp only
    rw [h]

/-- A one-stick digit and a one-stick equality sign forming a tiny catalog on
which the search is run concretely. -/
def tinyD : Symbol :=
  ⟨{⟨0, 0, Orientation.vertical⟩}, "1", "tiny_one", SymKind.digit⟩

def tinyE : Symbol :=
  ⟨{⟨0, 0, Orientation.horizontal⟩}, "==", "tiny_eq", SymKind.equalityOperator⟩

def tinyRecord : SubRecord :=
  ⟨0, 0, "1", "1", [tinyD, tinyE, tinyD]⟩

theorem c1_witness :
    tinyRecord ∈ validSubstitutions [tinyD, tinyE] [tinyD, tinyE, tinyD] ∧
    (evaluate tinyRecord.expr = .ok (.bool true) ∧
      ∀ i j ns nd e,
        evaluate (substituteSymbol
          (substituteSymbol [tinyD, tinyE, tinyD] ns i) nd j) = .error e →
          testSubstitution [tinyD, tinyE, tinyD] i j ns nd = none) :=
  ⟨by decide,
    c1_search_records_only_true [tinyD, tinyE] [tinyD, tinyE, tinyD] tinyRecord
      (by decide)⟩

/-- A syntactically valid Python 2 integer literal over this alphabet: a
nonempty run of digits; a multi-digit literal starting with `0` is octal and
may use only the digits `0`-`7`. -/
def ValidLiteral : List Char → Prop
  | [] => False
  | d :: tail =>
    d.isDigit = true ∧ (∀ c ∈ tail, c.isDigit = true) ∧
      (d = '0' → tail ≠ [] → ∀ c ∈ tail, c ≤ '7')

/-- A term: any number of unary `+`/`-` signs applied to an integer
literal. -/
inductive TermStr : List Char → Prop
  | lit (ds : List Char) : ValidLiteral ds → TermStr ds
  | plusSign (cs : List Char) : TermStr cs → TermStr ('+' :: cs)
  | minusSign (cs : List Char) : TermStr cs → TermStr ('-' :: cs)

/-- An additive expression: a term followed by any number of binary `+`/`-`
applications (left-associative). -/
inductive ArithStr : List Char → Prop
  | term (cs : List Char) : TermStr cs → ArithStr cs
  | plusApp (as ts : List Char) : ArithStr as → TermStr ts →
      ArithStr (as ++ '+' :: ts)
  | minusApp (as ts : List Char) : ArithStr as → TermStr ts →
      ArithStr (as ++ '-' :: ts)

/-- A comparison chain: an additive expression followed by any number of
`==`/`!=` comparisons (Python chains them pairwise). -/
inductive ChainStr : List Char → Prop
  | arith (cs : List Char) : ArithStr cs → ChainStr cs
  | eqApp (as bs : List Char) : ChainStr as → ArithStr bs →
      ChainStr (as ++ '=' :: '=' :: bs)
  | neqApp (as bs : List Char) : ChainStr as → ArithStr bs →
      ChainStr (as ++ '!' :: '=' :: bs)

/-- The grammar of the (amended) claim: an arithmetic expression with at most
one `==`/`!=` comparison. -/
def CmpStr (cs : List Char) : Prop :=
  ArithStr cs ∨
    ∃ a b, (cs = a ++ '=' :: '=' :: b ∨ cs = a ++ '!' :: '=' :: b) ∧
      ArithStr a ∧ ArithStr b

theorem parseNumeral_sound (cs : List Char) (v : Int) (r : List Char)
    (h : parseNumeral cs = .ok (v, r)) :
    ∃ ds, cs = ds ++ r ∧ ValidLiteral ds := by
  have hdigits : ∀ c ∈ cs.takeWhile Char.isDigit, c.isDigit = true :=
    fun c hc => List.mem_takeWhile_imp hc
  unfold parseNumeral at h
  revert h
  cases heq : cs.takeWhile Char.isDigit with
  | nil =>
    intro h
    exact absurd h (by simp)
  | cons d tail =>
    dsimp only
    intro h
    have hsplit : cs = (d :: tail) ++ cs.dropWhile Char.isDigit := by
      rw [← heq]
      exact (List.takeWhile_append_dropWhile _ _).symm
    have hd : d.isDigit = true :=
      hdigits d (by rw [heq]; exact List.mem_cons_self _ _)
    have htail : ∀ c ∈ tail, c.isDigit = true :=
      fun c hc => hdigits c (by rw [heq]; exact List.mem_cons_of_mem _ hc)
    refine ⟨d :: tail, ?_, ?_⟩
    · split_ifs at h with h1 h2
      · injection h with h'
        injection h' with hv hr
        subst hr
        exact hsplit
      · injection h with h'
        injection h' with hv hr
        subst hr
        exact hsplit
    · refine ⟨hd, htail, ?_⟩
      intro hd0 htne
      split_ifs at h with h1 h2
      · intro c hc
        exact of_decide_eq_true (List.all_eq_true.1 h2 c hc)
      · exact absurd ⟨hd0, htne⟩ h1

theorem parseTerm_sound (cs : List Char) : ∀ v r, parseTerm cs = .ok (v, r) →
    ∃ ds, cs = ds ++ r ∧ TermStr ds := by
  induction cs with
  | nil =>
    intro v r h
    obtain ⟨ds, hds, hlit⟩ := parseNumeral_sound [] v r h
    exact ⟨ds, hds, TermStr.lit ds hlit⟩
  | cons c cs ih =>
    intro v r h
    unfold parseTerm at h
    split_ifs at h with h1 h2
    · subst h1
      revert h
      cases hp : parseTerm cs with
      | ok vr =>
        obtain ⟨v', r'⟩ := vr
        intro h
        injection h with h'
        injection h' with hv hr
        subst hr
        obtain ⟨ds, hds, hterm⟩ := ih _ _ hp
        exact ⟨'+' :: ds, by rw [hds]; simp, TermStr.plusSign ds hterm⟩
      | error e =>
        intro h
        exact absurd h (by simp)
    · subst h2
      revert h
      cases hp : parseTerm cs with
      | ok vr =>
        obtain ⟨v', r'⟩ := vr
        intro h
        injection h with h'
        injection h' with hv hr
        subst hr
        obtain ⟨ds, hds, hterm⟩ := ih _ _ hp
        exact ⟨'-' :: ds, by rw [hds]; simp, TermStr.minusSign ds hterm⟩
      | error e =>
        intro h
        exact absurd h (by simp)
    · obtain ⟨ds, hds, hlit⟩ := parseNumeral_sound (c :: cs) v r h
      exact ⟨ds, hds, TermStr.lit ds hlit⟩

theorem arithTail_sound (n : Nat) : ∀ acc cs v r, cs.length ≤ n →
    arithTail acc cs = .ok (v, r) →
    ∃ ds, cs = ds ++ r ∧ ∀ as, ArithStr as → ArithStr (as ++ ds) := by
  induction n with
  | zero =>
    intro acc cs v r hn h
    have hnil : cs = [] := List.length_eq_zero.1 (Nat.le_zero.1 hn)
    subst hnil
    rw [arithTail_nil] at h
    injection h with h'
    injection h' with hv hr
    subst hr
    exact ⟨[], rfl, fun as ha => by rw [List.append_nil]; exact ha⟩
  | succ n ih =>
    intro acc cs v r hn h
    cases cs with
    | nil =>
      rw [arithTail_nil] at h
      injection h with h'
      injection h' with hv hr
      subst hr
      exact ⟨[], rfl, fun as ha => by rw [List.append_nil]; exact ha⟩
    | cons c cs' =>
      rw [arithTail_cons] at h
      simp only [List.length_cons] at hn
      split_ifs at h with h1 h2
      · subst h1
        revert h
        cases hp : parseTerm cs' with
        | ok vr =>
          obtain ⟨v1, r1⟩ := vr
          intro h
          have hr1 : r1.length ≤ cs'.length := parseTerm_length cs' v1 r1 hp
          obtain ⟨ts, hts, hterm⟩ := parseTerm_sound cs' v1 r1 hp
          obtain ⟨ds', hds', hext⟩ := ih (acc + v1) r1 v r (by omega) h
          refine ⟨'+' :: ts ++ ds', ?_, ?_⟩
          · rw [hts, hds']
            simp
          · intro as ha
            have : as ++ ('+' :: ts ++ ds') = (as ++ '+' :: ts) ++ ds' := by
              simp
            rw [this]
            exact hext (as ++ '+' :: ts) (ArithStr.plusApp as ts ha hterm)
        | error e =>
          intro h
          exact absurd h (by simp)
      · subst h2
        revert h
        cases hp : parseTerm cs' with
        | ok vr =>
          obtain ⟨v1, r1⟩ := vr
          intro h
          have hr1 : r1.length ≤ cs'.length := parseTerm_length cs' v1 r1 hp
          obtain ⟨ts, hts, hterm⟩ := parseTerm_sound cs' v1 r1 hp
          obtain ⟨ds', hds', hext⟩ := ih (acc - v1) r1 v r (by omega) h
          refine ⟨'-' :: ts ++ ds', ?_, ?_⟩
          · rw [hts, hds']
            simp
          · intro as ha
            have : as ++ ('-' :: ts ++ ds') = (as ++ '-' :: ts) ++ ds' := by
              simp
            rw [this]
            exact hext (as ++ '-' :: ts) (ArithStr.minusApp as ts ha hterm)
        | error e =>
          intro h
          exact absurd h (by simp)
      · injection h with h'
        injection h' with hv hr
        subst hr
        exact ⟨[], rfl, fun as ha => by rw [List.append_nil]; exact ha⟩

theorem parseArith_sound (cs : List Char) (v : Int) (r : List Char)
    (h : parseArith cs = .ok (v, r)) : ∃ ds, cs = ds ++ r ∧ ArithStr ds := by
  unfold parseArith at h
  revert h
  cases hp : parseTerm cs with
  | ok vr =>
    obtain ⟨v0, r0⟩ := vr
    intro h
    obtain ⟨ts, hts, hterm⟩ := parseTerm_sound cs v0 r0 hp
    obtain ⟨ds', hds', hext⟩ := arithTail_sound r0.length v0 r0 v r (Nat.le_refl _) h
    refine ⟨ts ++ ds', ?_, hext ts (ArithStr.term ts hterm)⟩
    rw [List.append_assoc, ← hds', ← hts]
  | error e =>
    intro h
    exact absurd h (by simp)

theorem cmpTail_sound (n : Nat) : ∀ prev acc cs b r, cs.length ≤ n →
    cmpTail prev acc cs = .ok (b, r) →
    ∃ ds, cs = ds ++ r ∧ ∀ as, ChainStr as → ChainStr (as ++ ds) := by
  induction n with
  | zero =>
    intro prev acc cs b r hn h
    have hnil : cs = [] := List.length_eq_zero.1 (Nat.le_zero.1 hn)
    subst hnil
    rw [cmpTail_nil] at h
    injection h with h'
    injection h' with hb hr
    subst hr
    exact ⟨[], rfl, fun as ha => by rw [List.append_nil]; exact ha⟩
  | succ n ih =>
    intro prev acc cs b r hn h
    cases cs with
    | nil =>
      rw [cmpTail_nil] at h
      injection h with h'
      injection h' with hb hr
      subst hr
      exact ⟨[], rfl, fun as ha => by rw [List.append_nil]; exact ha⟩
    | cons c1 rest =>
      rw [cmpTail_cons] at h
      simp only [List.length_cons] at hn
      split_ifs at h with h1 h2
      · subst h1
        revert h
        cases rest with
        | nil =>
          intro h
          exact absurd h (by simp)
        | cons c2 cs' =>
          dsimp only
          split_ifs with h2
          · subst h2
            cases hp : parseArith cs' with
            | ok vr =>
              obtain ⟨v1, r1⟩ := vr
              intro h
              have hr1 : r1.length ≤ cs'.length := parseArith_length cs' v1 r1 hp
              obtain ⟨bs, hbs, harith⟩ := parseArith_sound cs' v1 r1 hp
              obtain ⟨ds', hds', hext⟩ := ih v1 _ r1 b r
                (by simp only [List.length_cons] at hn; omega) h
              refine ⟨'=' :: '=' :: bs ++ ds', ?_, ?_⟩
              · rw [hbs, hds']
                simp
              · intro as ha
                have : as ++ ('=' :: '=' :: bs ++ ds')
                    = (as ++ '=' :: '=' :: bs) ++ ds' := by
                  simp
                rw [this]
                exact hext (as ++ '=' :: '=' :: bs) (ChainStr.eqApp as bs ha harith)
            | error e =>
              intro h
              exact absurd h (by simp)
          · intro h
            exact absurd h (by simp)
      · subst h2
        revert h
        cases rest with
        | nil =>
          intro h
          exact absurd h (by simp)
        | cons c2 cs' =>
          dsimp only
          split_ifs with h2
          · subst h2
            cases hp : parseArith cs' with
            | ok vr =>
              obtain ⟨v1, r1⟩ := vr
              intro h
              have hr1 : r1.length ≤ cs'.length := parseArith_length cs' v1 r1 hp
              obtain ⟨bs, hbs, harith⟩ := parseArith_sound cs' v1 r1 hp
              obtain ⟨ds', hds', hext⟩ := ih v1 _ r1 b r
                (by simp only [List.length_cons] at hn; omega) h
              refine ⟨'!' :: '=' :: bs ++ ds', ?_, ?_⟩
              · rw [hbs, hds']
                simp
              · intro as ha
                have : as ++ ('!' :: '=' :: bs ++ ds')
                    = (as ++ '!' :: '=' :: bs) ++ ds' := by
                  simp
                rw [this]
                exact hext (as ++ '!' :: '=' :: bs) (ChainStr.neqApp as bs ha harith)
            | error e =>
              intro h
              exact absurd h (by simp)
          · intro h
            exact absurd h (by simp)
      · injection h with h'
        injection h' with hb hr
        subst hr
        exact ⟨[], rfl, fun as ha => by rw [List.append_nil]; exact ha⟩

/-- Parser soundness: a string the evaluator accepts is generated by the
chain grammar. -/
theorem exprEval_sound (cs : List Char) (v : PyVal)
    (h : exprEval cs = .ok v) : ChainStr cs := by
  unfold exprEval at h
  revert h
  cases hp : parseArith cs with
  | ok vr =>
    obtain ⟨v0, r⟩ := vr
    intro h
    obtain ⟨as, has, harith⟩ := parseArith_sound cs v0 r hp
    cases r with
    | nil =>
      rw [List.append_nil] at has
      rw [has]
      exact ChainStr.arith as harith
    | cons c1 rest =>
      revert h
      dsimp only
      cases hc : cmpTail v0 true (c1 :: rest) with
      | ok br =>
        obtain ⟨b, r2⟩ := br
        intro h
        cases r2 with
        | nil =>
          obtain ⟨ds, hds, hext⟩ :=
            cmpTail_sound (c1 :: rest).length v0 true (c1 :: rest) b [] (Nat.le_refl _) hc
          rw [List.append_nil] at hds
          rw [has, hds]
          exact hext as (ChainStr.arith as harith)
        | cons _ _ =>
          exact absurd h (by simp)
      | error e =>
        intro h
        exact absurd h (by simp)
  | error e =>
    intro h
    exact absurd h (by simp)

theorem takeWhile_append_of (p : Char → Bool) (ds : List Char) :
    ∀ rest, (∀ c ∈ ds, p c = true) → (∀ c, rest.head? = some c → p c = false) →
      (ds ++ rest).takeWhile p = ds ∧ (ds ++ rest).dropWhile p = rest := by
  induction ds with
  | nil =>
    intro rest h hr
    cases rest with
    | nil => exact ⟨rfl, rfl⟩
    | cons c r' =>
      constructor
      · simp [List.takeWhile_cons, hr c rfl]
      · simp [List.dropWhile_cons, hr c rfl]
  | cons d ds ih =>
    intro rest h hr
    have hd : p d = true := h d (List.mem_cons_self _ _)
    obtain ⟨h1, h2⟩ := ih rest (fun c hc => h c (List.mem_cons_of_mem _ hc)) hr
    constructor
    · simp [List.takeWhile_cons, hd, h1]
    · simp [List.dropWhile_cons, hd, h2]

theorem parseNumeral_complete (ds : List Char) (hlit : ValidLiteral ds) :
    ∀ rest, (∀ c, rest.head? = some c → c.isDigit = false) →
      ∃ v, parseNumeral (ds ++ rest) = .ok (v, rest) := by
  cases ds with
  | nil => exact absurd hlit id
  | cons d tail =>
    intro rest hr
    obtain ⟨hd, htail, hoct⟩ := hlit
    have hall : ∀ c ∈ d :: tail, c.isDigit = true := by
      intro c hc
      rcases List.mem_cons.1 hc with rfl | hc'
      · exact hd
      · exact htail c hc'
    obtain ⟨ht, hdw⟩ := takeWhile_append_of Char.isDigit (d :: tail) rest hall hr
    unfold parseNumeral
    rw [ht, hdw]
    dsimp only
    split_ifs with h1 h2
    · exact ⟨octVal (d :: tail), rfl⟩
    · exact absurd (fun c hc => decide_eq_true (hoct h1.1 h1.2 c hc))
        (by intro hcontra; exact h2 (List.all_eq_true.2 hcontra))
    · exact ⟨decVal (d :: tail), rfl⟩

theorem parseTerm_complete (ds : List Char) (ht : TermStr ds) :
    ∀ rest, (∀ c, rest.head? = some c → c.isDigit = false) →
      ∃ v, parseTerm (ds ++ rest) = .ok (v, rest) := by
  induction ht with
  | lit ds hlit =>
    intro rest hr
    obtain ⟨v, hv⟩ := parseNumeral_complete ds hlit rest hr
    cases ds with
    | nil => exact absurd hlit id
    | cons d tail =>
      have hd : d.isDigit = true := hlit.1
      have hne1 : ¬ d = '+' := by
        intro he
        rw [he] at hd
        exact absurd hd (by decide)
      have hne2 : ¬ d = '-' := by
        intro he
        rw [he] at hd
        exact absurd hd (by decide)
      refine ⟨v, ?_⟩
      rw [List.cons_append]
      unfold parseTerm
      rw [if_neg hne1, if_neg hne2, ← List.cons_append]
      exact hv
  | plusSign cs hcs ih =>
    intro rest hr
    obtain ⟨v, hv⟩ := ih rest hr
    refine ⟨v, ?_⟩
    rw [List.cons_append]
    unfold parseTerm
    rw [if_pos rfl, hv]
  | minusSign cs hcs ih =>
    intro rest hr
    obtain ⟨v, hv⟩ := ih rest hr
    refine ⟨-v, ?_⟩
    rw [List.cons_append]
    unfold parseTerm
    rw [if_neg (by decide), if_pos rfl, hv]

/-- The `(('+'|'-') term)*` tails of additive expressions, listed from the
left. -/
inductive ArithTailStr : List Char → Prop
  | nil : ArithTailStr []
  | plusT (ts tl : List Char) : TermStr ts → ArithTailStr tl →
      ArithTailStr ('+' :: ts ++ tl)
  | minusT (ts tl : List Char) : TermStr ts → ArithTailStr tl →
      ArithTailStr ('-' :: ts ++ tl)

theorem arithTailStr_snoc_plus (tl ts : List Char) (h : ArithTailStr tl)
    (ht : TermStr ts) : ArithTailStr (tl ++ '+' :: ts) := by
  induction h with
  | nil => simpa using ArithTailStr.plusT ts [] ht ArithTailStr.nil
  | plusT ts' tl' ht' htl' ih => simpa using ArithTailStr.plusT ts' _ ht' ih
  | minusT ts' tl' ht' htl' ih => simpa using ArithTailStr.minusT ts' _ ht' ih

theorem arithTailStr_snoc_minus (tl ts : List Char) (h : ArithTailStr tl)
    (ht : TermStr ts) : ArithTailStr (tl ++ '-' :: ts) := by
  induction h with
  | nil => simpa using ArithTailStr.minusT ts [] ht ArithTailStr.nil
  | plusT ts' tl' ht' htl' ih => simpa using ArithTailStr.plusT ts' _ ht' ih
  | minusT ts' tl' ht' htl' ih => simpa using ArithTailStr.minusT ts' _ ht' ih

theorem arith_decompose (cs : List Char) (h : ArithStr cs) :
    ∃ t0 tl, cs = t0 ++ tl ∧ TermStr t0 ∧ ArithTailStr tl := by
  induction h with
  | term cs ht => exact ⟨cs, [], by simp, ht, ArithTailStr.nil⟩
  | plusApp as ts ha ht ih =>
    obtain ⟨t0, tl, rfl, ht0, htl⟩ := ih
    exact ⟨t0, tl ++ '+' :: ts, by simp, ht0, arithTailStr_snoc_plus tl ts htl ht⟩
  | minusApp as ts ha ht ih =>
    obtain ⟨t0, tl, rfl, ht0, htl⟩ := ih
    exact ⟨t0, tl ++ '-' :: ts, by simp, ht0, arithTailStr_snoc_minus tl ts htl ht⟩

theorem arithTailStr_head (tl rest : List Char) (h : ArithTailStr tl)
    (hrest : ∀ c, rest.head? = some c → c.isDigit = false) :
    ∀ c, (tl ++ rest).head? = some c → c.isDigit = false := by
  cases h with
  | nil => exact hrest
  | plusT ts tl' ht htl =>
    intro c hc
    simp only [List.cons_append, List.head?_cons, Option.some.injEq] at hc
    subst hc
    decide
  | minusT ts tl' ht htl =>
    intro c hc
    simp only [List.cons_append, List.head?_cons, Option.some.injEq] at hc
    subst hc
    decide

theorem arithTail_complete (tl : List Char) (h : ArithTailStr tl) :
    ∀ acc rest,
      (∀ c, rest.head? = some c → c.isDigit = false ∧ ¬ c = '+' ∧ ¬ c = '-') →
      ∃ v, arithTail acc (tl ++ rest) = .ok (v, rest) := by
  induction h with
  | nil =>
    intro acc rest hrest
    cases rest with
    | nil => exact ⟨acc, arithTail_nil acc⟩
    | cons c r' =>
      obtain ⟨h1, h2, h3⟩ := hrest c rfl
      refine ⟨acc, ?_⟩
      rw [List.nil_append, arithTail_cons, if_neg h2, if_neg h3]
  | plusT ts tl' ht htl ih =>
    intro acc rest hrest
    obtain ⟨v1, hv1⟩ := parseTerm_complete ts ht (tl' ++ rest)
      (arithTailStr_head tl' rest htl fun c hc => (hrest c hc).1)
    obtain ⟨v, hv⟩ := ih (acc + v1) rest hrest
    refine ⟨v, ?_⟩
    have hshape : ('+' :: ts ++ tl') ++ rest = '+' :: (ts ++ (tl' ++ rest)) := by simp
    rw [hshape, arithTail_cons, if_pos rfl, hv1]
    exact hv
  | minusT ts tl' ht htl ih =>
    intro acc rest hrest
    obtain ⟨v1, hv1⟩ := parseTerm_complete ts ht (tl' ++ rest)
      (arithTailStr_head tl' rest htl fun c hc => (hrest c hc).1)
    obtain ⟨v, hv⟩ := ih (acc - v1) rest hrest
    refine ⟨v, ?_⟩
    have hshape : ('-' :: ts ++ tl') ++ rest = '-' :: (ts ++ (tl' ++ rest)) := by simp
    rw [hshape, arithTail_cons, if_neg (by decide), if_pos rfl, hv1]
    exact hv

theorem parseArith_complete (ds rest : List Char) (h : ArithStr ds)
    (hrest : ∀ c, rest.head? = some c → c.isDigit = false ∧ ¬ c = '+' ∧ ¬ c = '-') :
    ∃ v, parseArith (ds ++ rest) = .ok (v, rest) := by
  obtain ⟨t0, tl, rfl, ht0, htl⟩ := arith_decompose ds h
  obtain ⟨v0, hv0⟩ := parseTerm_complete t0 ht0 (tl ++ rest)
    (arithTailStr_head tl rest htl fun c hc => (hrest c hc).1)
  obtain ⟨v, hv⟩ := arithTail_complete tl htl v0 rest hrest
  refine ⟨v, ?_⟩
  unfold parseArith
  rw [List.append_assoc, hv0]
  exact hv

/-- The `(('=='|'!=') arith)*` tails of comparison chains, listed from the
left. -/
inductive ChainTailStr : List Char → Prop
  | nil : ChainTailStr []
  | eqT (bs tl : List Char) : ArithStr bs → ChainTailStr tl →
      ChainTailStr ('=' :: '=' :: bs ++ tl)
  | neqT (bs tl : List Char) : ArithStr bs → ChainTailStr tl →
      ChainTailStr ('!' :: '=' :: bs ++ tl)

theorem chainTailStr_snoc_eq (tl bs : List Char) (h : ChainTailStr tl)
    (hb : ArithStr bs) : ChainTailStr (tl ++ '=' :: '=' :: bs) := by
  induction h with
  | nil => simpa using ChainTailStr.eqT bs [] hb ChainTailStr.nil
  | eqT bs' tl' hb' htl' ih => simpa using ChainTailStr.eqT bs' _ hb' ih
  | neqT bs' tl' hb' htl' ih => simpa using ChainTailStr.neqT bs' _ hb' ih

theorem chainTailStr_snoc_neq (tl bs : List Char) (h : ChainTailStr tl)
    (hb : ArithStr bs) : ChainTailStr (tl ++ '!' :: '=' :: bs) := by
  induction h with
  | nil => simpa using ChainTailStr.neqT bs [] hb ChainTailStr.nil
  | eqT bs' tl' hb' htl' ih => simpa using ChainTailStr.eqT bs' _ hb' ih
  | neqT bs' tl' hb' htl' ih => simpa using ChainTailStr.neqT bs' _ hb' ih

theorem chain_decompose (cs : List Char) (h : ChainStr cs) :
    ∃ a tl, cs = a ++ tl ∧ ArithStr a ∧ ChainTailStr tl := by
  induction h with
  | arith cs ha => exact ⟨cs, [], by simp, ha, ChainTailStr.nil⟩
  | eqApp as bs hc hb ih =>
    obtain ⟨a, tl, rfl, ha, htl⟩ := ih
    exact ⟨a, tl ++ '=' :: '=' :: bs, by simp, ha, chainTailStr_snoc_eq tl bs htl hb⟩
  | neqApp as bs hc hb ih =>
    obtain ⟨a, tl, rfl, ha, htl⟩ := ih
    exact ⟨a, tl ++ '!' :: '=' :: bs, by simp, ha, chainTailStr_snoc_neq tl bs htl hb⟩

theorem chainTailStr_head (tl : List Char) (h : ChainTailStr tl) :
    ∀ c, tl.head? = some c → c.isDigit = false ∧ ¬ c = '+' ∧ ¬ c = '-' := by
  cases h with
  | nil =>
    intro c hc
    exact absurd hc (by simp)
  | eqT bs tl' hb htl =>
    intro c hc
    simp only [List.cons_append, List.head?_cons, Option.some.injEq] at hc
    subst hc
    refine ⟨by decide, by decide, by decide⟩
  | neqT bs tl' hb htl =>
    intro c hc
    simp only [List.cons_append, List.head?_cons, Option.some.injEq] at hc
    subst hc
    refine ⟨by decide, by decide, by decide⟩

theorem cmpTail_complete (tl : List Char) (h : ChainTailStr tl) :
    ∀ prev acc, ∃ b, cmpTail prev acc tl = .ok (b, []) := by
  induction h with
  | nil => intro prev acc; exact ⟨acc, cmpTail_nil prev acc⟩
  | eqT bs tl' hb htl ih =>
    intro prev acc
    obtain ⟨v1, hv1⟩ := parseArith_complete bs tl' hb (chainTailStr_head tl' htl)
    obtain ⟨b, hbv⟩ := ih v1 (acc && decide (prev = v1))
    refine ⟨b, ?_⟩
    have hshape : ('=' :: '=' :: bs ++ tl') = '=' :: ('=' :: (bs ++ tl')) := by simp
    rw [hshape, cmpTail_cons, if_pos rfl]
    dsimp only
    rw [if_pos rfl, hv1]
    exact hbv
  | neqT bs tl' hb htl ih =>
    intro prev acc
    obtain ⟨v1, hv1⟩ := parseArith_complete bs tl' hb (chainTailStr_head tl' htl)
    obtain ⟨b, hbv⟩ := ih v1 (acc && decide (¬ prev = v1))
    refine ⟨b, ?_⟩
    have hshape : ('!' :: '=' :: bs ++ tl') = '!' :: ('=' :: (bs ++ tl')) := by simp
    rw [hshape, cmpTail_cons, if_neg (by decide), if_pos rfl]
    dsimp only
    rw [if_pos rfl, hv1]
    exact hbv

/-- Parser completeness: every string of the chain grammar is accepted by the
evaluator. -/
theorem exprEval_complete (cs : List Char) (h : ChainStr cs) :
    ∃ v, exprEval cs = .ok v := by
  obtain ⟨a, tl, rfl, ha, htl⟩ := chain_decompose cs h
  obtain ⟨v0, hv0⟩ := parseArith_complete a tl ha (chainTailStr_head tl htl)
  unfold exprEval
  rw [hv0]
  dsimp only
  cases tl with
  | nil => exact ⟨.int v0, rfl⟩
  | cons t ts =>
    obtain ⟨b, hb⟩ := cmpTail_complete (t :: ts) htl v0 true
    refine ⟨.bool b, ?_⟩
    rw [hb]

/-- The characters that make up comparison tokens. -/
def cmpChar (c : Char) : Bool :=
  c == '=' || c == '!'

theorem cmpChar_of_digit (c : Char) (h : c.isDigit = true) : cmpChar c = false := by
  cases hc : cmpChar c
  · rfl
  · exfalso
    simp only [cmpChar, Bool.or_eq_true, beq_iff_eq] at hc
    rcases hc with rfl | rfl
    · exact absurd h (by decide)
    · exact absurd h (by decide)

theorem termStr_count (ds : List Char) (h : TermStr ds) : ds.countP cmpChar = 0 := by
  induction h with
  | lit ds hlit =>
    rw [List.countP_eq_zero]
    intro c hc
    cases ds with
    | nil => exact absurd hlit id
    | cons d tail =>
      obtain ⟨hd, htail, -⟩ := hlit
      rcases List.mem_cons.1 hc with rfl | hc'
      · rw [cmpChar_of_digit c hd]; simp
      · rw [cmpChar_of_digit c (htail c hc')]; simp
  | plusSign cs hcs ih => rw [List.countP_cons, ih]; rfl
  | minusSign cs hcs ih => rw [List.countP_cons, ih]; rfl

theorem arithStr_count (ds : List Char) (h : ArithStr ds) :
    ds.countP cmpChar = 0 := by
  induction h with
  | term cs ht => exact termStr_count cs ht
  | plusApp as ts ha ht ih =>
    rw [List.countP_append, ih, List.countP_cons, termStr_count ts ht]
    rfl
  | minusApp as ts ha ht ih =>
    rw [List.countP_append, ih, List.countP_cons, termStr_count ts ht]
    rfl

/-- A chain with at most two comparison characters has at most one
comparison, hence is in the claim's restricted grammar. -/
theorem chainStr_cmpStr (cs : List Char) (h : ChainStr cs)
    (hcount : cs.countP cmpChar ≤ 2) : CmpStr cs := by
  cases h with
  | arith cs ha => exact Or.inl ha
  | eqApp as bs hc hb =>
    cases hc with
    | arith _ ha' => exact Or.inr ⟨as, bs, Or.inl rfl, ha', hb⟩
    | eqApp as2 bs2 hc2 hb2 =>
      exfalso
      simp [List.countP_append, List.countP_cons, cmpChar] at hcount
      omega
    | neqApp as2 bs2 hc2 hb2 =>
      exfalso
      simp [List.countP_append, List.countP_cons, cmpChar] at hcount
      omega
  | neqApp as bs hc hb =>
    cases hc with
    | arith _ ha' => exact Or.inr ⟨as, bs, Or.inr rfl, ha', hb⟩
    | eqApp as2 bs2 hc2 hb2 =>
      exfalso
      simp [List.countP_append, List.countP_cons, cmpChar] at hcount
      omega
    | neqApp as2 bs2 hc2 hb2 =>
      exfalso
      simp [List.countP_append, List.countP_cons, cmpChar] at hcount
      omega

theorem enumFrom_filter_length (l : List Symbol) : ∀ n : Nat,
    ((List.enumFrom n l).filter fun p =>
        decide (p.2.kind = SymKind.equalityOperator)).length
      = l.countP fun s => decide (s.kind = SymKind.equalityOperator) := by
  induction l with
  | nil => intro n; rfl
  | cons s rest ih =>
    intro n
    rw [List.enumFrom_cons, List.filter_cons, List.countP_cons]
    by_cases hk : s.kind = SymKind.equalityOperator
    · rw [if_pos (by simpa using hk)]
      simp only [List.length_cons, ih (n + 1)]
      rw [if_pos (by simpa using hk)]
    · rw [if_neg (by simpa using hk)]
      rw [ih (n + 1)]
      rw [if_neg (by simpa using hk)]
      omega

theorem equalityIndices_length_eq_countP (syms : List Symbol) :
    (equalityIndices syms).length
      = syms.countP fun s => decide (s.kind = SymKind.equalityOperator) := by
  unfold equalityIndices
  rw [List.length_map]
  exact enumFrom_filter_length syms 0

/-- Every catalog symbol's code contributes two comparison characters when it
is an equality operator and none otherwise. -/
theorem allSymbols_code_count : ∀ s ∈ allSymbols,
    s.code.data.countP cmpChar
      = (if s.kind = SymKind.equalityOperator then 2 else 0) := by
  decide

theorem count_codeChars (syms : List Symbol)
    (h2 : ∀ s ∈ syms, s ∈ allSymbols) :
    (codeChars syms).countP cmpChar = 2 * (equalityIndices syms).length := by
  rw [equalityIndices_length_eq_countP]
  induction syms with
  | nil => rfl
  | cons s rest ih =>
    have hcode : codeChars (s :: rest) = s.code.data ++ codeChars rest := by
      simp [codeChars]
    rw [hcode, List.countP_append, List.countP_cons,
      ih (fun t ht => h2 t (List.mem_cons_of_mem _ ht)),
      allSymbols_code_count s (h2 s (List.mem_cons_self _ _))]
    by_cases hk : s.kind = SymKind.equalityOperator
    · rw [if_pos hk, if_pos (by simpa using hk)]
      omega
    · rw [if_neg hk, if_neg (by simpa using hk)]
      omega

/-- Claim C4, counterexample: `Expression([minus, two])` has code `-2`, whose
leading `-` "lacks its left operand", yet `evaluate()` succeeds with the
integer −2 (Python's unary minus); and `Expression([zero, eight])` has code
`08`, a concatenation of adjacent digit tokens, yet `evaluate()` fails
(Python 2 rejects a multi-digit literal starting with `0` whose digits are
not all octal). -/
theorem c4_counterexample :
    (equalityIndices [minus, two]).length ≤ 1 ∧
    evaluate [minus, two] = .ok (.int (-2)) ∧
    (equalityIndices [zero, eight]).length ≤ 1 ∧
    evaluate [zero, eight] = .error .invalidExpression := by
  refine ⟨by decide, by decide, by decide, by decide⟩

/-- Claim C4, amended: For an expression of catalog symbols with at most one
equality operator, `evaluate()` fails with `InvalidExpression` exactly when
its token string is not generated by the grammar: integer literals
(concatenated digit tokens, with Python 2's octal restriction on multi-digit
literals starting with `0`), unary sign prefixes, binary `+`/`-`, and at most
one `==`/`!=` comparison. -/
theorem c4_invalid_iff_not_grammar (syms : List Symbol)
    (h1 : (equalityIndices syms).length ≤ 1)
    (h2 : ∀ s ∈ syms, s ∈ allSymbols) :
    evaluate syms = .error .invalidExpression ↔ ¬ CmpStr (codeChars syms) := by
  rw [evaluate_single syms (by omega)]
  constructor
  · intro herr hcmp
    have hchain : ChainStr (codeChars syms) := by
      rcases hcmp with ha | ⟨a, b, hab, ha, hb⟩
      · exact ChainStr.arith _ ha
      · rcases hab with heq | heq
        · rw [heq]
          exact ChainStr.eqApp a b (ChainStr.arith a ha) hb
        · rw [heq]
          exact ChainStr.neqApp a b (ChainStr.arith a ha) hb
    obtain ⟨v, hv⟩ := exprEval_complete _ hchain
    rw [herr] at hv
    exact absurd hv (by simp)
  · intro hnot
    cases hev : exprEval (codeChars syms) with
    | error e =>
      cases e
      rfl
    | ok v =>
      have hchain := exprEval_sound _ v hev
      have hcount : (codeChars syms).countP cmpChar ≤ 2 := by
        rw [count_codeChars syms h2]
        omega
      exact absurd (chainStr_cmpStr _ hchain hcount) hnot

theorem c4_witness :
    (equalityIndices [plus_b, eq_a, two]).length ≤ 1 ∧
    (∀ s ∈ [plus_b, eq_a, two], s ∈ allSymbols) ∧
    (evaluate [plus_b, eq_a, two] = .error .invalidExpression ↔
      ¬ CmpStr (codeChars [plus_b, eq_a, two])) :=
  ⟨by decide, by decide,
    c4_invalid_iff_not_grammar [plus_b, eq_a, two] (by decide) (by decide)⟩

end Digits
